import Mathlib

/-!
A shallow embedding of the `chroma` voxel-section container (`src/lib.rs`):
a fixed-size 3-D grid storing 64-bit identifiers through a palette plus a
bit-packed array of palette indices, with a dynamic repack that widens the
per-item bit width when the palette grows past the addressable range.

Modeling conventions.  Machine integers are `Nat`.  Wherever Rust's `u64`
semantics truncates bits (left shifts, bitwise complement) the truncation
`% 2 ^ 64` is written explicitly (`shl64`, `not64`).  `usize` index
arithmetic cannot overflow for any section that can actually be allocated
(the volume `W * H * D` is a compile-time constant and every index
computation is bounded by it), so it is modeled as exact `Nat` arithmetic.
The `i32`-to-`usize` and `usize`-to-`i32` casts of the source are modeled
bit-faithfully (`asUsize`, `natAsI32`).  Partial operations - Rust panics
on vector indexing, and the out-of-range `get_unchecked` accesses, which
are undefined behavior - are modeled with `Option`: a `none` result means
the Rust program panics or commits an out-of-bounds access.
-/

namespace Chroma

/-- Position type standing for `glam::IVec3` (three `i32` coordinates). -/
structure IVec3 where
  x : Int
  y : Int
  z : Int
deriving DecidableEq, Repr

/-- Error type of the bounds-checked entry points (`enum BoundsError`). -/
inductive BoundsError where
  | OutOfBounds (pos : IVec3)
deriving DecidableEq, Repr

deriving instance DecidableEq for Except

/-- The container of `src/lib.rs`: `pub struct Section<W, H, D>` with its
three fields `data: Vec<u64>`, `palette: Vec<u64>`, `bits_per_item: u8`. -/
structure Section (W H D : Nat) where
  data : List Nat
  palette : List Nat
  bits_per_item : Nat
deriving DecidableEq, Repr

/-- `Self::BITS_PER_WORD` (`u64` word width). -/
def BITS_PER_WORD : Nat := 64

/-- `Self::VOLUME = W * H * D`. -/
def VOLUME (W H D : Nat) : Nat := W * H * D

/-- Left shift of a `u64` value: Rust's `<<` on `u64` keeps the low 64 bits
of the shifted value. -/
def shl64 (a k : Nat) : Nat := (a <<< k) % 2 ^ 64

/-- Bitwise complement of a `u64` value (`!x`).  All values this is applied
to are below `2 ^ 64`, where xor with the all-ones word is the complement. -/
def not64 (x : Nat) : Nat := x ^^^ (2 ^ 64 - 1)

/-- The `i32 as usize` cast: sign extension reinterpreted as a 64-bit
unsigned value. -/
def asUsize (x : Int) : Nat := (x % (2 ^ 64 : Int)).toNat

/-- The `usize as i32` cast: the low 32 bits reinterpreted in two's
complement. -/
def natAsI32 (n : Nat) : Int :=
  if n % 2 ^ 32 < 2 ^ 31 then ((n % 2 ^ 32 : Nat) : Int)
  else ((n % 2 ^ 32 : Nat) : Int) - 2 ^ 32

/-- `Section::item_index`: row-major flattening
`(pos.x as usize) * (H * D) + (pos.y as usize) * D + (pos.z as usize)`. -/
def item_index (H D : Nat) (pos : IVec3) : Nat :=
  asUsize pos.x * (H * D) + asUsize pos.y * D + asUsize pos.z

/-- `Section::split_index`: bit offset of an item, split into the word
index and the bit position inside that word. -/
def split_index (idx bits_per_item : Nat) : Nat × Nat :=
  let bit_offset := idx * bits_per_item
  (bit_offset / BITS_PER_WORD, bit_offset % BITS_PER_WORD)

/-- `Section::check_position_in_bounds`: every coordinate must be
nonnegative and below the matching dimension (compared as `i32`). -/
def check_position_in_bounds (W H D : Nat) (pos : IVec3) : Except BoundsError Unit :=
  if pos.x < 0 ∨ natAsI32 W ≤ pos.x ∨ pos.y < 0 ∨ natAsI32 H ≤ pos.y ∨
      pos.z < 0 ∨ natAsI32 D ≤ pos.z then
    Except.error (BoundsError.OutOfBounds pos)
  else
    Except.ok ()

variable {W H D : Nat}

/-- `Section::new`: zeroed data sized for `bits_per_item * VOLUME` bits and
a palette pre-filled with `1 << bits_per_item` zero entries. -/
def Section.new (W H D : Nat) (bits_per_item : Nat) : Section W H D :=
  let palette_len := 1 <<< bits_per_item
  let total_bits_needed := bits_per_item * VOLUME W H D
  let data_len := (total_bits_needed + BITS_PER_WORD - 1) / BITS_PER_WORD
  { data := List.replicate data_len 0
    palette := List.replicate palette_len 0
    bits_per_item := bits_per_item }

/-- `Section::is_empty`: every stored word is zero. -/
def Section.is_empty (s : Section W H D) : Bool :=
  s.data.all (fun word => word == 0)

/-- `Section::palette_index` (the decoder): read the `bits_per_item`-wide
palette index of the item at `idx`, spanning into the next word when the
bit range crosses a word boundary.  `none` models the panic of the
`self.data[word_index]` indexing when the word index is out of range. -/
def Section.palette_index (s : Section W H D) (idx : Nat) : Option Nat :=
  let b := s.bits_per_item
  let word_index := (split_index idx b).1
  let bit_in_word := (split_index idx b).2
  match s.data[word_index]? with
  | none => none
  | some w =>
    if bit_in_word + b > BITS_PER_WORD then
      match s.data[word_index + 1]? with
      | none => none
      | some next_word =>
        let remaining_bits_n := bit_in_word + b - BITS_PER_WORD
        let item := (w >>> bit_in_word) ||| shl64 next_word (b - remaining_bits_n)
        some (item &&& (shl64 1 b - 1))
    else
      some ((w >>> bit_in_word) &&& (shl64 1 b - 1))

/-- `Section::set_item_ex` (the encoder): clear the `bits_per_item` target
bits of the item at `idx` and OR in the low bits of `pi`, split across two
words when the range crosses a word boundary.  `none` models the undefined
behavior of a `get_unchecked_mut` access past the end of `data`. -/
def Section.set_item_ex (s : Section W H D) (idx pi : Nat) : Option (Section W H D) :=
  let b := s.bits_per_item
  let word_index := (split_index idx b).1
  let bit_in_word := (split_index idx b).2
  let bits_in_first_word := BITS_PER_WORD - bit_in_word
  if b ≤ bits_in_first_word then
    match s.data[word_index]? with
    | none => none
    | some w =>
      let item_mask := shl64 1 b - 1
      let w1 := (w &&& not64 (shl64 item_mask bit_in_word)) |||
        shl64 (pi &&& item_mask) bit_in_word
      some { s with data := s.data.set word_index w1 }
  else
    match s.data[word_index]?, s.data[word_index + 1]? with
    | some w, some w2 =>
      let bits_in_second_word := b - bits_in_first_word
      let mask_for_first_word := shl64 1 bits_in_first_word - 1
      let wa := (w &&& not64 (shl64 mask_for_first_word bit_in_word)) |||
        shl64 (pi &&& mask_for_first_word) bit_in_word
      let mask_for_second_word := shl64 1 bits_in_second_word - 1
      let wb := (w2 &&& not64 mask_for_second_word) |||
        ((pi >>> bits_in_first_word) &&& mask_for_second_word)
      some { s with data := (s.data.set word_index wa).set (word_index + 1) wb }
    | _, _ => none

/-- `Iterator::position(|&id| id == item)` over the palette. -/
def position_eq (item : Nat) : List Nat → Option Nat
  | [] => none
  | x :: rest => if x == item then some 0 else (position_eq item rest).map (· + 1)

/-- The decode pass of `Section::repack`: collect the palette index of
every cell, at the current `bits_per_item`. -/
def collect_indices (s : Section W H D) : List Nat → Option (List Nat)
  | [] => some []
  | i :: rest =>
    match s.palette_index i with
    | none => none
    | some pi =>
      match collect_indices s rest with
      | none => none
      | some tail => some (pi :: tail)

/-- The re-encode loop of `Section::repack`: write the collected palette
index of every listed cell through `set_item_ex`.  `none` models the
undefined behavior of the `get_unchecked` read past `all_palette_indices`. -/
def repack_go (idxs : List Nat) : Section W H D → List Nat → Option (Section W H D)
  | t, [] => some t
  | t, i :: rest =>
    match idxs[i]? with
    | none => none
    | some pi =>
      match t.set_item_ex i pi with
      | none => none
      | some t' => repack_go idxs t' rest

/-- `Section::repack`: decode every cell at the old width, replace `data`
with a zeroed array sized for the new width, and re-encode every cell. -/
def Section.repack (s : Section W H D) (new_bits_per_item : Nat) : Option (Section W H D) :=
  match collect_indices s (List.range (VOLUME W H D)) with
  | none => none
  | some all_palette_indices =>
    let s1 : Section W H D :=
      { s with
        bits_per_item := new_bits_per_item
        data := List.replicate
          ((new_bits_per_item * VOLUME W H D + BITS_PER_WORD - 1) / BITS_PER_WORD) 0 }
    repack_go all_palette_indices s1 (List.range (VOLUME W H D))

/-- `Section::set_item_unchecked`: resolve the value to a palette index
(appending, and repacking at `bits_per_item + 1` when the palette has
outgrown the current width), then encode that index at the cell. -/
def Section.set_item_unchecked (s : Section W H D) (pos : IVec3) (item : Nat) :
    Option (Section W H D) :=
  match position_eq item s.palette with
  | some pi => s.set_item_ex (item_index H D pos) pi
  | none =>
    let new_index := s.palette.length
    let s1 : Section W H D := { s with palette := s.palette ++ [item] }
    let s2? : Option (Section W H D) :=
      if 1 <<< s1.bits_per_item ≤ new_index then s1.repack (s1.bits_per_item + 1)
      else some s1
    match s2? with
    | none => none
    | some s2 => s2.set_item_ex (item_index H D pos) new_index

/-- `Section::item_unchecked`: decode the cell's palette index and look it
up in the palette.  The palette access is `get_unchecked`, so an index past
the palette is undefined behavior, modeled as `none`. -/
def Section.item_unchecked (s : Section W H D) (pos : IVec3) : Option Nat :=
  match s.palette_index (item_index H D pos) with
  | none => none
  | some pi => s.palette[pi]?

/-- `Section::item`: bounds check, then the unchecked read. -/
def Section.item (s : Section W H D) (pos : IVec3) : Option (Except BoundsError Nat) :=
  match check_position_in_bounds W H D pos with
  | Except.error e => some (Except.error e)
  | Except.ok _ =>
    match s.item_unchecked pos with
    | none => none
    | some v => some (Except.ok v)

/-- `Section::set_item`: bounds check, then the unchecked write.  The
result pairs the final state of `&mut self` with the returned `Result`. -/
def Section.set_item (s : Section W H D) (pos : IVec3) (item : Nat) :
    Option (Section W H D × Except BoundsError Unit) :=
  match check_position_in_bounds W H D pos with
  | Except.error e => some (s, Except.error e)
  | Except.ok _ =>
    match s.set_item_unchecked pos item with
    | none => none
    | some s' => some (s', Except.ok ())

/-- States reachable from a construction through the bounds-checked entry
points (`item` does not change the state, so only `set_item` steps count;
a step exists only when the call returns rather than panicking). -/
inductive Reachable (W H D : Nat) : Section W H D → Prop
  | new (b : Nat) : Reachable W H D (Section.new W H D b)
  | step {s s' : Section W H D} {e : Except BoundsError Unit} (pos : IVec3) (item : Nat) :
      Reachable W H D s → s.set_item pos item = some (s', e) → Reachable W H D s'

/-- Bit `n` of the packed bit stream held by a word array: 64-bit words,
word `n / 64`, bit `n % 64` inside it.  Past the end of the array the
stream reads as zero. -/
def bitAt (data : List Nat) (n : Nat) : Bool :=
  (data[n / 64]?.getD 0).testBit (n % 64)

theorem shl64_one {b : Nat} (hb : b ≤ 63) : shl64 1 b = 2 ^ b := by
  unfold shl64
  rw [Nat.one_shiftLeft]
  exact Nat.mod_eq_of_lt (Nat.pow_lt_pow_right (by norm_num) (by omega))

theorem shl64_lt (a k : Nat) : shl64 a k < 2 ^ 64 :=
  Nat.mod_lt _ (by norm_num)

theorem testBit_ge_64 {x j : Nat} (hx : x < 2 ^ 64) (hj : 64 ≤ j) : x.testBit j = false :=
  Nat.testBit_lt_two_pow (lt_of_lt_of_le hx (Nat.pow_le_pow_right (by norm_num) hj))

theorem testBit_shl64 (a k j : Nat) :
    (shl64 a k).testBit j = (decide (j < 64) && (decide (j ≥ k) && a.testBit (j - k))) := by
  unfold shl64
  rw [Nat.testBit_mod_two_pow, Nat.testBit_shiftLeft]

theorem testBit_not64 (x j : Nat) (hx : x < 2 ^ 64) :
    (not64 x).testBit j = (decide (j < 64) && ! x.testBit j) := by
  unfold not64
  rw [Nat.testBit_xor, Nat.testBit_two_pow_sub_one]
  by_cases h : j < 64
  · cases hb : x.testBit j <;> simp [h, hb]
  · have hj : (64 : Nat) ≤ j := by omega
    simp [h, testBit_ge_64 hx hj]

theorem mask_lt (c : Nat) (hc : c ≤ 63) : shl64 1 c - 1 < 2 ^ 64 := by
  rw [shl64_one hc]
  have : (2 : Nat) ^ c ≤ 2 ^ 64 := Nat.pow_le_pow_right (by norm_num) (by omega)
  have : (0 : Nat) < 2 ^ c := Nat.pos_pow_of_pos c (by norm_num)
  omega

/-- Bits of a masked read-modify-write that targets bit range
`[biw, biw + c)` of a word: inside the range the new bits come from `p`,
outside they are preserved. -/
theorem word_write_testBit (w p c biw j : Nat) (hw : w < 2 ^ 64)
    (hbc : biw + c ≤ 64) (hc63 : c ≤ 63) :
    ((w &&& not64 (shl64 (shl64 1 c - 1) biw)) |||
        shl64 (p &&& (shl64 1 c - 1)) biw).testBit j
      = if biw ≤ j ∧ j < biw + c then p.testBit (j - biw) else w.testBit j := by
  rw [Nat.testBit_lor, Nat.testBit_land,
    testBit_not64 _ _ (shl64_lt _ _), testBit_shl64, testBit_shl64,
    Nat.testBit_land, shl64_one hc63, Nat.testBit_two_pow_sub_one]
  by_cases h1 : j < 64
  · by_cases h2 : biw ≤ j
    · by_cases h3 : j - biw < c
      · have h4 : j < biw + c := by omega
        simp [h1, h2, h3, h4, ge_iff_le]
      · have h4 : ¬ j < biw + c := by omega
        simp [h1, h2, h3, h4, ge_iff_le]
    · have h4 : ¬(biw ≤ j ∧ j < biw + c) := by omega
      simp [h1, h2, h4, ge_iff_le]
  · have h4 : ¬(biw ≤ j ∧ j < biw + c) := by omega
    have hj : (64 : Nat) ≤ j := by omega
    simp [h1, h4, testBit_ge_64 hw hj]

/-- Bits of the second-word write of a spanning encode: bit range `[0, c)`
receives bits of `p` starting at `sa`, the rest of the word is preserved. -/
theorem word_write_low_testBit (w2 p sa c j : Nat) (hw : w2 < 2 ^ 64) (hc63 : c ≤ 63) :
    ((w2 &&& not64 (shl64 1 c - 1)) ||| ((p >>> sa) &&& (shl64 1 c - 1))).testBit j
      = if j < c then p.testBit (sa + j) else w2.testBit j := by
  rw [Nat.testBit_lor, Nat.testBit_land, testBit_not64 _ _ (mask_lt c hc63),
    Nat.testBit_land, Nat.testBit_shiftRight, shl64_one hc63,
    Nat.testBit_two_pow_sub_one]
  by_cases h1 : j < 64
  · by_cases h2 : j < c
    · simp [h1, h2]
    · simp [h1, h2]
  · have h2 : ¬ j < c := by omega
    have hj : (64 : Nat) ≤ j := by omega
    simp [h1, h2, testBit_ge_64 hw hj]

theorem split_index_fst (i b : Nat) : (split_index i b).1 = (i * b) / 64 := rfl

theorem split_index_snd (i b : Nat) : (split_index i b).2 = (i * b) % 64 := rfl

theorem palette_index_one_word (s : Section W H D) (i w : Nat)
    (hget : s.data[(i * s.bits_per_item) / 64]? = some w)
    (hcase : (i * s.bits_per_item) % 64 + s.bits_per_item ≤ 64) :
    s.palette_index i =
      some ((w >>> ((i * s.bits_per_item) % 64)) &&& (shl64 1 s.bits_per_item - 1)) := by
  simp only [Section.palette_index, split_index, BITS_PER_WORD, hget]
  rw [if_neg (by omega)]

theorem palette_index_two_words (s : Section W H D) (i w nw : Nat)
    (hget : s.data[(i * s.bits_per_item) / 64]? = some w)
    (hget2 : s.data[(i * s.bits_per_item) / 64 + 1]? = some nw)
    (hcase : 64 < (i * s.bits_per_item) % 64 + s.bits_per_item) :
    s.palette_index i =
      some (((w >>> ((i * s.bits_per_item) % 64)) |||
          shl64 nw (s.bits_per_item -
            ((i * s.bits_per_item) % 64 + s.bits_per_item - 64))) &&&
        (shl64 1 s.bits_per_item - 1)) := by
  simp only [Section.palette_index, split_index, BITS_PER_WORD, hget, hget2]
  rw [if_pos (by omega)]

theorem set_item_ex_one_word (s : Section W H D) (i p w : Nat)
    (hget : s.data[(i * s.bits_per_item) / 64]? = some w)
    (hcase : s.bits_per_item ≤ 64 - (i * s.bits_per_item) % 64) :
    s.set_item_ex i p = some { s with
      data := s.data.set ((i * s.bits_per_item) / 64)
        ((w &&& not64 (shl64 (shl64 1 s.bits_per_item - 1) ((i * s.bits_per_item) % 64))) |||
          shl64 (p &&& (shl64 1 s.bits_per_item - 1)) ((i * s.bits_per_item) % 64)) } := by
  simp only [Section.set_item_ex, split_index, BITS_PER_WORD, hget]
  rw [if_pos hcase]

theorem set_item_ex_two_words (s : Section W H D) (i p w w2 : Nat)
    (hget : s.data[(i * s.bits_per_item) / 64]? = some w)
    (hget2 : s.data[(i * s.bits_per_item) / 64 + 1]? = some w2)
    (hcase : ¬ s.bits_per_item ≤ 64 - (i * s.bits_per_item) % 64) :
    s.set_item_ex i p = some { s with
      data := (s.data.set ((i * s.bits_per_item) / 64)
          ((w &&& not64 (shl64 (shl64 1 (64 - (i * s.bits_per_item) % 64) - 1)
              ((i * s.bits_per_item) % 64))) |||
            shl64 (p &&& (shl64 1 (64 - (i * s.bits_per_item) % 64) - 1))
              ((i * s.bits_per_item) % 64))).set
        ((i * s.bits_per_item) / 64 + 1)
        ((w2 &&& not64 (shl64 1 (s.bits_per_item - (64 - (i * s.bits_per_item) % 64)) - 1)) |||
          ((p >>> (64 - (i * s.bits_per_item) % 64)) &&&
            (shl64 1 (s.bits_per_item - (64 - (i * s.bits_per_item) % 64)) - 1))) } := by
  simp only [Section.set_item_ex, split_index, BITS_PER_WORD, hget, hget2]
  rw [if_neg hcase]

/-- Correctness of the decoder on well-sized data: the item at `i` decodes
to the value whose low `bits_per_item` bits are the bit-stream bits of the
window `[i * b, i * b + b)`. -/
theorem palette_index_spec (s : Section W H D) (i : Nat)
    (hb1 : 1 ≤ s.bits_per_item) (hb2 : s.bits_per_item ≤ 63)
    (hw : ∀ x ∈ s.data, x < 2 ^ 64)
    (hfit : i * s.bits_per_item + s.bits_per_item ≤ 64 * s.data.length) :
    ∃ pi, s.palette_index i = some pi ∧ pi < 2 ^ s.bits_per_item ∧
      ∀ k, pi.testBit k =
        (decide (k < s.bits_per_item) && bitAt s.data (i * s.bits_per_item + k)) := by
  have hbiw : (i * s.bits_per_item) % 64 < 64 := Nat.mod_lt _ (by norm_num)
  have hwi : (i * s.bits_per_item) / 64 < s.data.length := by omega
  obtain ⟨w, hget⟩ : ∃ w, s.data[(i * s.bits_per_item) / 64]? = some w :=
    ⟨_, List.getElem?_eq_getElem hwi⟩
  have hwlt : w < 2 ^ 64 := hw w (List.getElem?_mem hget)
  have hmask : (0 : Nat) < 2 ^ s.bits_per_item := Nat.pos_pow_of_pos _ (by norm_num)
  by_cases hcase : (i * s.bits_per_item) % 64 + s.bits_per_item ≤ 64
  · rw [palette_index_one_word s i w hget hcase, shl64_one hb2]
    refine ⟨_, rfl, ?_, ?_⟩
    · have := Nat.and_le_right (n := w >>> ((i * s.bits_per_item) % 64))
        (m := 2 ^ s.bits_per_item - 1)
      omega
    · intro k
      rw [Nat.testBit_land, Nat.testBit_shiftRight, Nat.testBit_two_pow_sub_one]
      by_cases hk : k < s.bits_per_item
      · have hdiv : (i * s.bits_per_item + k) / 64 = (i * s.bits_per_item) / 64 := by omega
        have hmod : (i * s.bits_per_item + k) % 64 = (i * s.bits_per_item) % 64 + k := by
          omega
        unfold bitAt
        rw [hdiv, hmod, hget]
        simp [hk, Bool.and_comm]
      · simp [hk]
  · have hwi2 : (i * s.bits_per_item) / 64 + 1 < s.data.length := by omega
    obtain ⟨nw, hget2⟩ : ∃ nw, s.data[(i * s.bits_per_item) / 64 + 1]? = some nw :=
      ⟨_, List.getElem?_eq_getElem hwi2⟩
    rw [palette_index_two_words s i w nw hget hget2 (by omega), shl64_one hb2]
    have hsa : s.bits_per_item - ((i * s.bits_per_item) % 64 + s.bits_per_item - 64)
        = 64 - (i * s.bits_per_item) % 64 := by omega
    rw [hsa]
    refine ⟨_, rfl, ?_, ?_⟩
    · have := Nat.and_le_right
        (n := (w >>> ((i * s.bits_per_item) % 64)) |||
          shl64 nw (64 - (i * s.bits_per_item) % 64))
        (m := 2 ^ s.bits_per_item - 1)
      omega
    · intro k
      rw [Nat.testBit_land, Nat.testBit_lor, Nat.testBit_shiftRight, testBit_shl64,
        Nat.testBit_two_pow_sub_one]
      by_cases hk : k < s.bits_per_item
      · by_cases hks : (i * s.bits_per_item) % 64 + k < 64
        · have hdiv : (i * s.bits_per_item + k) / 64 = (i * s.bits_per_item) / 64 := by
            omega
          have hmod : (i * s.bits_per_item + k) % 64
              = (i * s.bits_per_item) % 64 + k := by omega
          unfold bitAt
          rw [hdiv, hmod, hget]
          have hge : ¬ (k ≥ 64 - (i * s.bits_per_item) % 64) := by omega
          simp [hk, hge, Bool.and_comm]
        · have hdiv : (i * s.bits_per_item + k) / 64 = (i * s.bits_per_item) / 64 + 1 := by
            omega
          have hmod : (i * s.bits_per_item + k) % 64
              = (i * s.bits_per_item) % 64 + k - 64 := by omega
          unfold bitAt
          rw [hdiv, hmod, hget2]
          have hwj : w.testBit ((i * s.bits_per_item) % 64 + k) = false :=
            testBit_ge_64 hwlt (by omega)
          have hge : k ≥ 64 - (i * s.bits_per_item) % 64 := by omega
          have hk64 : k < 64 := by omega
          have hsub : k - (64 - (i * s.bits_per_item) % 64)
              = (i * s.bits_per_item) % 64 + k - 64 := by omega
          rw [hsub]
          simp [hk, hge, hk64, hwj, Bool.and_comm]
      · simp [hk]

/-- Correctness of the encoder on well-sized data: writing `p` at item `i`
replaces the bit-stream window `[i * b, i * b + b)` with the low bits of
`p` and preserves every other bit, the length of `data`, the palette and
the width. -/
theorem set_item_ex_spec (s : Section W H D) (i p : Nat)
    (hb1 : 1 ≤ s.bits_per_item) (hb2 : s.bits_per_item ≤ 63)
    (hw : ∀ x ∈ s.data, x < 2 ^ 64)
    (hfit : i * s.bits_per_item + s.bits_per_item ≤ 64 * s.data.length) :
    ∃ s', s.set_item_ex i p = some s' ∧
      s'.palette = s.palette ∧ s'.bits_per_item = s.bits_per_item ∧
      s'.data.length = s.data.length ∧ (∀ x ∈ s'.data, x < 2 ^ 64) ∧
      ∀ n, bitAt s'.data n =
        if i * s.bits_per_item ≤ n ∧ n < i * s.bits_per_item + s.bits_per_item
        then p.testBit (n - i * s.bits_per_item)
        else bitAt s.data n := by
  have hbiw : (i * s.bits_per_item) % 64 < 64 := Nat.mod_lt _ (by norm_num)
  have hwi : (i * s.bits_per_item) / 64 < s.data.length := by omega
  obtain ⟨w, hget⟩ : ∃ w, s.data[(i * s.bits_per_item) / 64]? = some w :=
    ⟨_, List.getElem?_eq_getElem hwi⟩
  have hwlt : w < 2 ^ 64 := hw w (List.getElem?_mem hget)
  by_cases hcase : s.bits_per_item ≤ 64 - (i * s.bits_per_item) % 64
  · rw [set_item_ex_one_word s i p w hget hcase]
    have hset : (s.data.set ((i * s.bits_per_item) / 64)
        ((w &&& not64 (shl64 (shl64 1 s.bits_per_item - 1)
            ((i * s.bits_per_item) % 64))) |||
          shl64 (p &&& (shl64 1 s.bits_per_item - 1))
            ((i * s.bits_per_item) % 64)))[(i * s.bits_per_item) / 64]?
        = some ((w &&& not64 (shl64 (shl64 1 s.bits_per_item - 1)
            ((i * s.bits_per_item) % 64))) |||
          shl64 (p &&& (shl64 1 s.bits_per_item - 1))
            ((i * s.bits_per_item) % 64)) := by
      simp [List.getElem?_set_self, hwi]
    refine ⟨_, rfl, rfl, rfl, by simp, ?_, ?_⟩
    · intro x hx
      rcases List.mem_or_eq_of_mem_set hx with hmem | hx1
      · exact hw x hmem
      · subst hx1
        exact Nat.or_lt_two_pow (lt_of_le_of_lt Nat.and_le_left hwlt) (shl64_lt _ _)
    · intro n
      dsimp only
      unfold bitAt
      by_cases hdn : n / 64 = (i * s.bits_per_item) / 64
      · rw [hdn, hset, Option.getD_some,
          word_write_testBit w p s.bits_per_item ((i * s.bits_per_item) % 64) (n % 64)
            hwlt (by omega) hb2, hget, Option.getD_some]
        by_cases hwin : i * s.bits_per_item ≤ n ∧ n < i * s.bits_per_item + s.bits_per_item
        · have hc1 : (i * s.bits_per_item) % 64 ≤ n % 64 ∧
              n % 64 < (i * s.bits_per_item) % 64 + s.bits_per_item := by omega
          rw [if_pos hc1, if_pos hwin]
          have h5 : n % 64 - (i * s.bits_per_item) % 64 = n - i * s.bits_per_item := by
            omega
          rw [h5]
        · have hc1 : ¬ ((i * s.bits_per_item) % 64 ≤ n % 64 ∧
              n % 64 < (i * s.bits_per_item) % 64 + s.bits_per_item) := by omega
          rw [if_neg hc1, if_neg hwin]
      · rw [List.getElem?_set_ne (fun h => hdn h.symm)]
        have hwin : ¬ (i * s.bits_per_item ≤ n ∧
            n < i * s.bits_per_item + s.bits_per_item) := by omega
        rw [if_neg hwin]
  · have hwi2 : (i * s.bits_per_item) / 64 + 1 < s.data.length := by omega
    obtain ⟨w2, hget2⟩ : ∃ w2, s.data[(i * s.bits_per_item) / 64 + 1]? = some w2 :=
      ⟨_, List.getElem?_eq_getElem hwi2⟩
    have hw2lt : w2 < 2 ^ 64 := hw w2 (List.getElem?_mem hget2)
    rw [set_item_ex_two_words s i p w w2 hget hget2 hcase]
    have hrem63 : s.bits_per_item - (64 - (i * s.bits_per_item) % 64) ≤ 63 := by omega
    have hseta : (s.data.set ((i * s.bits_per_item) / 64)
        ((w &&& not64 (shl64 (shl64 1 (64 - (i * s.bits_per_item) % 64) - 1)
            ((i * s.bits_per_item) % 64))) |||
          shl64 (p &&& (shl64 1 (64 - (i * s.bits_per_item) % 64) - 1))
            ((i * s.bits_per_item) % 64)))[(i * s.bits_per_item) / 64]?
        = some ((w &&& not64 (shl64 (shl64 1 (64 - (i * s.bits_per_item) % 64) - 1)
            ((i * s.bits_per_item) % 64))) |||
          shl64 (p &&& (shl64 1 (64 - (i * s.bits_per_item) % 64) - 1))
            ((i * s.bits_per_item) % 64)) := by
      simp [List.getElem?_set_self, hwi]
    have hsetb : ((s.data.set ((i * s.bits_per_item) / 64)
          ((w &&& not64 (shl64 (shl64 1 (64 - (i * s.bits_per_item) % 64) - 1)
              ((i * s.bits_per_item) % 64))) |||
            shl64 (p &&& (shl64 1 (64 - (i * s.bits_per_item) % 64) - 1))
              ((i * s.bits_per_item) % 64))).set
        ((i * s.bits_per_item) / 64 + 1)
        ((w2 &&& not64 (shl64 1
            (s.bits_per_item - (64 - (i * s.bits_per_item) % 64)) - 1)) |||
          ((p >>> (64 - (i * s.bits_per_item) % 64)) &&&
            (shl64 1 (s.bits_per_item -
              (64 - (i * s.bits_per_item) % 64)) - 1))))[(i * s.bits_per_item) / 64 + 1]?
        = some ((w2 &&& not64 (shl64 1
            (s.bits_per_item - (64 - (i * s.bits_per_item) % 64)) - 1)) |||
          ((p >>> (64 - (i * s.bits_per_item) % 64)) &&&
            (shl64 1 (s.bits_per_item - (64 - (i * s.bits_per_item) % 64)) - 1))) := by
      simp [List.getElem?_set_self, List.length_set, hwi2]
    refine ⟨_, rfl, rfl, rfl, by simp, ?_, ?_⟩
    · intro x hx
      rcases List.mem_or_eq_of_mem_set hx with hx | hx1
      · rcases List.mem_or_eq_of_mem_set hx with hmem | hx2
        · exact hw x hmem
        · subst hx2
          exact Nat.or_lt_two_pow (lt_of_le_of_lt Nat.and_le_left hwlt) (shl64_lt _ _)
      · subst hx1
        exact Nat.or_lt_two_pow (lt_of_le_of_lt Nat.and_le_left hw2lt)
          (lt_of_le_of_lt Nat.and_le_right (mask_lt _ hrem63))
    · intro n
      dsimp only
      unfold bitAt
      by_cases hdn2 : n / 64 = (i * s.bits_per_item) / 64 + 1
      · rw [hdn2, hsetb, Option.getD_some,
          word_write_low_testBit w2 p (64 - (i * s.bits_per_item) % 64)
            (s.bits_per_item - (64 - (i * s.bits_per_item) % 64)) (n % 64) hw2lt hrem63,
          hget2, Option.getD_some]
        by_cases hwin : i * s.bits_per_item ≤ n ∧ n < i * s.bits_per_item + s.bits_per_item
        · have hc1 : n % 64 < s.bits_per_item - (64 - (i * s.bits_per_item) % 64) := by
            omega
          rw [if_pos hc1, if_pos hwin]
          have h5 : 64 - (i * s.bits_per_item) % 64 + n % 64 = n - i * s.bits_per_item := by
            omega
          rw [h5]
        · have hc1 : ¬ n % 64 < s.bits_per_item - (64 - (i * s.bits_per_item) % 64) := by
            omega
          rw [if_neg hc1, if_neg hwin]
      · by_cases hdn : n / 64 = (i * s.bits_per_item) / 64
        · rw [List.getElem?_set_ne (fun h => hdn2 h.symm), hdn, hseta, Option.getD_some,
            word_write_testBit w p (64 - (i * s.bits_per_item) % 64)
              ((i * s.bits_per_item) % 64) (n % 64) hwlt (by omega) (by omega),
            hget, Option.getD_some]
          by_cases hwin : i * s.bits_per_item ≤ n ∧
              n < i * s.bits_per_item + s.bits_per_item
          · have hc1 : (i * s.bits_per_item) % 64 ≤ n % 64 ∧
                n % 64 < (i * s.bits_per_item) % 64 +
                  (64 - (i * s.bits_per_item) % 64) := by omega
            rw [if_pos hc1, if_pos hwin]
            have h5 : n % 64 - (i * s.bits_per_item) % 64 = n - i * s.bits_per_item := by
              omega
            rw [h5]
          · have hc1 : ¬ ((i * s.bits_per_item) % 64 ≤ n % 64 ∧
                n % 64 < (i * s.bits_per_item) % 64 +
                  (64 - (i * s.bits_per_item) % 64)) := by omega
            rw [if_neg hc1, if_neg hwin]
        · rw [List.getElem?_set_ne (fun h => hdn2 h.symm),
            List.getElem?_set_ne (fun h => hdn h.symm)]
          have hwin : ¬ (i * s.bits_per_item ≤ n ∧
              n < i * s.bits_per_item + s.bits_per_item) := by omega
          rw [if_neg hwin]

theorem bitAt_oob {data : List Nat} {n : Nat} (h : 64 * data.length ≤ n) :
    bitAt data n = false := by
  unfold bitAt
  rw [List.getElem?_eq_none (by omega)]
  simp [Nat.zero_testBit]

theorem Section.ext' {s t : Section W H D} (h1 : s.data = t.data)
    (h2 : s.palette = t.palette) (h3 : s.bits_per_item = t.bits_per_item) : s = t := by
  cases s
  cases t
  simp_all

/-- Two word arrays of the same length, with genuine 64-bit words, that
agree on every bit of the stream are equal. -/
theorem data_ext {d1 d2 : List Nat} (hlen : d1.length = d2.length)
    (h1 : ∀ x ∈ d1, x < 2 ^ 64) (h2 : ∀ x ∈ d2, x < 2 ^ 64)
    (hbits : ∀ n, bitAt d1 n = bitAt d2 n) : d1 = d2 := by
  apply List.ext_getElem?
  intro j
  by_cases hj : j < d1.length
  · have hj2 : j < d2.length := by omega
    rw [List.getElem?_eq_getElem hj, List.getElem?_eq_getElem hj2]
    have hval : d1[j] = d2[j] := by
      apply Nat.eq_of_testBit_eq
      intro m
      by_cases hm : m < 64
      · have hb := hbits (64 * j + m)
        unfold bitAt at hb
        have hdiv : (64 * j + m) / 64 = j := by omega
        have hmod : (64 * j + m) % 64 = m := by omega
        rw [hdiv, hmod, List.getElem?_eq_getElem hj, List.getElem?_eq_getElem hj2] at hb
        simpa using hb
      · rw [testBit_ge_64 (h1 _ (List.getElem_mem hj)) (by omega),
          testBit_ge_64 (h2 _ (List.getElem_mem hj2)) (by omega)]
    rw [hval]
  · rw [List.getElem?_eq_none (by omega), List.getElem?_eq_none (by omega)]

/-- The bit window of item `i` lies inside the allocated words whenever
`data` has the length computed by the constructor and by `repack`. -/
theorem fit_of_lt {b V len i : Nat} (hi : i < V) (hlen : len = (b * V + 64 - 1) / 64) :
    i * b + b ≤ 64 * len := by
  have h1 : i * b + b ≤ V * b := by
    have h := Nat.mul_le_mul_right (k := b) (Nat.succ_le_of_lt hi)
    calc i * b + b = (i + 1) * b := by ring
    _ ≤ V * b := h
  have h2 : V * b = b * V := Nat.mul_comm V b
  omega

/-- Two sections with the same width whose bit streams agree on the window
of item `j` decode item `j` identically. -/
theorem palette_index_congr (s s' : Section W H D) (j : Nat)
    (hb : s'.bits_per_item = s.bits_per_item)
    (hb1 : 1 ≤ s.bits_per_item) (hb2 : s.bits_per_item ≤ 63)
    (hw : ∀ x ∈ s.data, x < 2 ^ 64) (hw' : ∀ x ∈ s'.data, x < 2 ^ 64)
    (hfit : j * s.bits_per_item + s.bits_per_item ≤ 64 * s.data.length)
    (hfit' : j * s.bits_per_item + s.bits_per_item ≤ 64 * s'.data.length)
    (hbits : ∀ n, j * s.bits_per_item ≤ n →
      n < j * s.bits_per_item + s.bits_per_item → bitAt s'.data n = bitAt s.data n) :
    s'.palette_index j = s.palette_index j := by
  obtain ⟨pi, hpi, hlt, hchar⟩ := palette_index_spec s j hb1 hb2 hw hfit
  obtain ⟨pi', hpi', hlt', hchar'⟩ := palette_index_spec s' j (by omega) (by omega) hw'
    (by rw [hb]; exact hfit')
  rw [hpi, hpi']
  have : pi' = pi := by
    apply Nat.eq_of_testBit_eq
    intro k
    rw [hchar k, hchar' k, hb]
    by_cases hk : k < s.bits_per_item
    · rw [hbits (j * s.bits_per_item + k) (by omega) (by omega)]
    · simp [hk]
  rw [this]

/-- Writing back the palette index a cell already holds does not change
the section at all. -/
theorem set_item_ex_id (s : Section W H D) (i p : Nat)
    (hb1 : 1 ≤ s.bits_per_item) (hb2 : s.bits_per_item ≤ 63)
    (hw : ∀ x ∈ s.data, x < 2 ^ 64)
    (hfit : i * s.bits_per_item + s.bits_per_item ≤ 64 * s.data.length)
    (hdec : s.palette_index i = some p) :
    s.set_item_ex i p = some s := by
  obtain ⟨s', hex, hpal, hbi, hlen, hw', hchar⟩ := set_item_ex_spec s i p hb1 hb2 hw hfit
  obtain ⟨pi, hpi, hlt, hdchar⟩ := palette_index_spec s i hb1 hb2 hw hfit
  rw [hdec] at hpi
  obtain rfl : p = pi := by
    cases hpi
    rfl
  have hdata : s'.data = s.data := by
    apply data_ext hlen hw' hw
    intro n
    rw [hchar n]
    by_cases hwin : i * s.bits_per_item ≤ n ∧ n < i * s.bits_per_item + s.bits_per_item
    · rw [if_pos hwin]
      have hk := hdchar (n - i * s.bits_per_item)
      have hkb : n - i * s.bits_per_item < s.bits_per_item := by omega
      have ho : i * s.bits_per_item + (n - i * s.bits_per_item) = n := by omega
      rw [hk, ho]
      simp [hkb]
    · rw [if_neg hwin]
  rw [hex]
  congr 1
  exact Section.ext' hdata hpal hbi

/-- On well-sized data the decoder never reads past the word array, for
any positive width. -/
theorem palette_index_isSome (s : Section W H D) (i : Nat)
    (hb1 : 1 ≤ s.bits_per_item)
    (hfit : i * s.bits_per_item + s.bits_per_item ≤ 64 * s.data.length) :
    (s.palette_index i).isSome = true := by
  have hbiw : (i * s.bits_per_item) % 64 < 64 := Nat.mod_lt _ (by norm_num)
  have hwi : (i * s.bits_per_item) / 64 < s.data.length := by omega
  obtain ⟨w, hget⟩ : ∃ w, s.data[(i * s.bits_per_item) / 64]? = some w :=
    ⟨_, List.getElem?_eq_getElem hwi⟩
  by_cases hcase : (i * s.bits_per_item) % 64 + s.bits_per_item ≤ 64
  · rw [palette_index_one_word s i w hget hcase]
    rfl
  · have hwi2 : (i * s.bits_per_item) / 64 + 1 < s.data.length := by omega
    obtain ⟨nw, hget2⟩ : ∃ nw, s.data[(i * s.bits_per_item) / 64 + 1]? = some nw :=
      ⟨_, List.getElem?_eq_getElem hwi2⟩
    rw [palette_index_two_words s i w nw hget hget2 (by omega)]
    rfl

/-- On well-sized data the encoder never touches a word past the array,
for any positive width and any index value. -/
theorem set_item_ex_isSome (s : Section W H D) (i p : Nat)
    (hb1 : 1 ≤ s.bits_per_item)
    (hfit : i * s.bits_per_item + s.bits_per_item ≤ 64 * s.data.length) :
    (s.set_item_ex i p).isSome = true := by
  have hbiw : (i * s.bits_per_item) % 64 < 64 := Nat.mod_lt _ (by norm_num)
  have hwi : (i * s.bits_per_item) / 64 < s.data.length := by omega
  obtain ⟨w, hget⟩ : ∃ w, s.data[(i * s.bits_per_item) / 64]? = some w :=
    ⟨_, List.getElem?_eq_getElem hwi⟩
  by_cases hcase : s.bits_per_item ≤ 64 - (i * s.bits_per_item) % 64
  · rw [set_item_ex_one_word s i p w hget hcase]
    rfl
  · have hwi2 : (i * s.bits_per_item) / 64 + 1 < s.data.length := by omega
    obtain ⟨w2, hget2⟩ : ∃ w2, s.data[(i * s.bits_per_item) / 64 + 1]? = some w2 :=
      ⟨_, List.getElem?_eq_getElem hwi2⟩
    rw [set_item_ex_two_words s i p w w2 hget hget2 hcase]
    rfl

/-- The encoder only rewrites words in place: palette, width and data
length are untouched. -/
theorem set_item_ex_structure {s s' : Section W H D} {i p : Nat}
    (h : s.set_item_ex i p = some s') :
    s'.palette = s.palette ∧ s'.bits_per_item = s.bits_per_item ∧
      s'.data.length = s.data.length := by
  unfold Section.set_item_ex at h
  simp only [split_index_fst, split_index_snd, BITS_PER_WORD] at h
  split at h
  · split at h
    · exact absurd h (by simp)
    · cases h
      simp
  · split at h
    · cases h
      simp
    · exact absurd h (by simp)

theorem bitAt_replicate_zero (m n : Nat) : bitAt (List.replicate m 0) n = false := by
  unfold bitAt
  rw [List.getElem?_replicate]
  by_cases h : n / 64 < m <;> simp [h, Nat.zero_testBit]

/-- Windows of distinct items never overlap. -/
theorem window_disjoint {b i j n : Nat} (hne : j ≠ i)
    (h1 : j * b ≤ n) (h2 : n < j * b + b) : ¬ (i * b ≤ n ∧ n < i * b + b) := by
  rcases Nat.lt_or_ge j i with hji | hji
  · have : (j + 1) * b ≤ i * b := Nat.mul_le_mul_right _ (by omega)
    have : j * b + b ≤ i * b := by
      calc j * b + b = (j + 1) * b := by ring
      _ ≤ i * b := this
    omega
  · have hij : i < j := by omega
    have : (i + 1) * b ≤ j * b := Nat.mul_le_mul_right _ (by omega)
    have : i * b + b ≤ j * b := by
      calc i * b + b = (i + 1) * b := by ring
      _ ≤ j * b := this
    omega

/-- Full behavior of one encode step on well-formed data: the written cell
decodes to the written index, every other cell decodes unchanged, and the
slack bits above `bits_per_item * V` are unchanged. -/
theorem set_item_ex_decode (V : Nat) (s : Section W H D) (i p : Nat)
    (hb1 : 1 ≤ s.bits_per_item) (hb2 : s.bits_per_item ≤ 63)
    (hw : ∀ x ∈ s.data, x < 2 ^ 64)
    (hlen : s.data.length = (s.bits_per_item * V + 64 - 1) / 64)
    (hi : i < V) (hp : p < 2 ^ s.bits_per_item) :
    ∃ s', s.set_item_ex i p = some s' ∧
      s'.palette = s.palette ∧ s'.bits_per_item = s.bits_per_item ∧
      s'.data.length = s.data.length ∧ (∀ x ∈ s'.data, x < 2 ^ 64) ∧
      s'.palette_index i = some p ∧
      (∀ j, j < V → j ≠ i → s'.palette_index j = s.palette_index j) ∧
      (∀ n, s.bits_per_item * V ≤ n → bitAt s'.data n = bitAt s.data n) := by
  have hfit : i * s.bits_per_item + s.bits_per_item ≤ 64 * s.data.length :=
    fit_of_lt hi hlen
  have hiV : i * s.bits_per_item + s.bits_per_item ≤ s.bits_per_item * V := by
    have h1 : i * s.bits_per_item + s.bits_per_item ≤ V * s.bits_per_item := by
      have h := Nat.mul_le_mul_right (k := s.bits_per_item) (Nat.succ_le_of_lt hi)
      calc i * s.bits_per_item + s.bits_per_item
          = (i + 1) * s.bits_per_item := by ring
      _ ≤ V * s.bits_per_item := h
    have h2 : V * s.bits_per_item = s.bits_per_item * V := Nat.mul_comm _ _
    omega
  obtain ⟨s', hex, hpal, hbi, hlenq, hw', hchar⟩ := set_item_ex_spec s i p hb1 hb2 hw hfit
  refine ⟨s', hex, hpal, hbi, hlenq, hw', ?_, ?_, ?_⟩
  · obtain ⟨pi', hpi', hlt', hchar'⟩ := palette_index_spec s' i (by omega) (by omega) hw'
      (by rw [hbi, hlenq]; exact hfit)
    rw [hpi']
    have : pi' = p := by
      apply Nat.eq_of_testBit_eq
      intro k
      rw [hchar' k, hbi]
      by_cases hk : k < s.bits_per_item
      · have hwin : i * s.bits_per_item ≤ i * s.bits_per_item + k ∧
            i * s.bits_per_item + k < i * s.bits_per_item + s.bits_per_item := by omega
        rw [hchar (i * s.bits_per_item + k), if_pos hwin]
        simp [hk]
      · have : p.testBit k = false :=
          Nat.testBit_lt_two_pow (lt_of_lt_of_le hp
            (Nat.pow_le_pow_right (by norm_num) (by omega)))
        simp [hk, this]
    rw [this]
  · intro j hj hne
    apply palette_index_congr s s' j hbi hb1 hb2 hw hw'
      (fit_of_lt hj hlen) (by rw [hlenq]; exact fit_of_lt hj hlen)
    intro n hn1 hn2
    rw [hchar n, if_neg (window_disjoint hne hn1 hn2)]
  · intro n hn
    rw [hchar n, if_neg (by omega)]

/-- Behavior of the re-encode loop: every processed cell decodes to its
listed index, every unprocessed cell is untouched, and structure and slack
bits are preserved. -/
theorem repack_go_spec (idxs : List Nat) (f : Nat → Nat) (V : Nat)
    (hiv : ∀ j, j < V → idxs[j]? = some (f j)) (l : List Nat) :
    ∀ t : Section W H D, (∀ j ∈ l, j < V) → l.Nodup →
    1 ≤ t.bits_per_item → t.bits_per_item ≤ 63 →
    (∀ x ∈ t.data, x < 2 ^ 64) →
    t.data.length = (t.bits_per_item * V + 64 - 1) / 64 →
    (∀ j ∈ l, f j < 2 ^ t.bits_per_item) →
    ∃ t', repack_go idxs t l = some t' ∧
      t'.palette = t.palette ∧ t'.bits_per_item = t.bits_per_item ∧
      t'.data.length = t.data.length ∧ (∀ x ∈ t'.data, x < 2 ^ 64) ∧
      (∀ j ∈ l, t'.palette_index j = some (f j)) ∧
      (∀ j, j < V → j ∉ l → t'.palette_index j = t.palette_index j) ∧
      (∀ n, t.bits_per_item * V ≤ n → bitAt t'.data n = bitAt t.data n) := by
  induction l with
  | nil =>
    intro t _ _ _ _ _ _ _
    exact ⟨t, rfl, rfl, rfl, rfl, by assumption, by simp, fun j _ _ => rfl, fun n _ => rfl⟩
  | cons i rest ih =>
    intro t hl hnd hb1 hb2 hw hlen hf
    have hiV : i < V := hl i (by simp)
    obtain ⟨t1, hex, hpal, hbi, hlenq, hw1, hdec_i, hdec_other, hslack⟩ :=
      set_item_ex_decode V t i (f i) hb1 hb2 hw hlen hiV (hf i (by simp))
    have hrest : ∀ j ∈ rest, j < V := fun j hj => hl j (by simp [hj])
    have hndr : rest.Nodup := (List.nodup_cons.mp hnd).2
    have hnotin : i ∉ rest := (List.nodup_cons.mp hnd).1
    obtain ⟨t', hgo, hpal', hbi', hlen', hw', hmem', hout', hslack'⟩ :=
      ih t1 hrest hndr (by omega) (by omega) hw1
        (by rw [hlenq, hbi]; exact hlen)
        (fun j hj => by rw [hbi]; exact hf j (by simp [hj]))
    refine ⟨t', ?_, ?_, ?_, ?_, hw', ?_, ?_, ?_⟩
    · unfold repack_go
      rw [hiv i hiV]
      simp [hex, hgo]
    · rw [hpal', hpal]
    · rw [hbi', hbi]
    · rw [hlen', hlenq]
    · intro j hj
      rcases List.mem_cons.mp hj with hj1 | hj2
      · subst hj1
        rw [hout' j hiV hnotin, hdec_i]
      · exact hmem' j hj2
    · intro j hjV hjl
      have hjr : j ∉ rest := fun hc => hjl (by simp [hc])
      have hji : j ≠ i := fun hc => hjl (by simp [hc])
      rw [hout' j hjV hjr, hdec_other j hjV hji]
    · intro n hn
      rw [hslack' n (by rw [hbi]; exact hn), hslack n hn]

/-- The re-encode loop succeeds on well-sized data for any width and any
index values: it never touches a word past the array. -/
theorem repack_go_isSome (idxs : List Nat) (V : Nat)
    (hidx : ∀ j, j < V → (idxs[j]?).isSome = true) (l : List Nat) :
    ∀ t : Section W H D, (∀ j ∈ l, j < V) →
    1 ≤ t.bits_per_item →
    t.data.length = (t.bits_per_item * V + 64 - 1) / 64 →
    ∃ t', repack_go idxs t l = some t' ∧
      t'.palette = t.palette ∧ t'.bits_per_item = t.bits_per_item ∧
      t'.data.length = t.data.length := by
  induction l with
  | nil =>
    intro t _ _ _
    exact ⟨t, rfl, rfl, rfl, rfl⟩
  | cons i rest ih =>
    intro t hl hb1 hlen
    have hiV : i < V := hl i (by simp)
    obtain ⟨p, hp⟩ := Option.isSome_iff_exists.mp (hidx i hiV)
    have hexs := set_item_ex_isSome t i p hb1 (fit_of_lt hiV hlen)
    obtain ⟨t1, hex⟩ := Option.isSome_iff_exists.mp hexs
    obtain ⟨hpal, hbi, hlenq⟩ := set_item_ex_structure hex
    obtain ⟨t', hgo, hpal', hbi', hlen'⟩ :=
      ih t1 (fun j hj => hl j (by simp [hj])) (by omega)
        (by rw [hlenq, hbi]; exact hlen)
    refine ⟨t', ?_, ?_, ?_, ?_⟩
    · unfold repack_go
      rw [hp]
      simp [hex, hgo]
    · rw [hpal', hpal]
    · rw [hbi', hbi]
    · rw [hlen', hlenq]

/-- The decode pass succeeds when every listed cell decodes, and returns
exactly the decoded indices. -/
theorem collect_indices_spec (s : Section W H D) (l : List Nat)
    (h : ∀ i ∈ l, (s.palette_index i).isSome = true) :
    collect_indices s l = some (l.map (fun i => (s.palette_index i).getD 0)) := by
  induction l with
  | nil => rfl
  | cons i rest ih =>
    have hi := h i (by simp)
    obtain ⟨pi, hpi⟩ := Option.isSome_iff_exists.mp hi
    have hrest := ih (fun j hj => h j (by simp [hj]))
    simp [collect_indices, hpi, hrest]

/-- Full behavior of `repack` to a width in `[bits_per_item, 63]`: the
palette is untouched, every cell decodes as before, and the new data is
exactly sized with zero slack bits. -/
theorem repack_spec (s : Section W H D) (nb : Nat)
    (hb1 : 1 ≤ s.bits_per_item) (hb2 : s.bits_per_item ≤ 63)
    (hnb : s.bits_per_item ≤ nb) (hnb2 : nb ≤ 63)
    (hw : ∀ x ∈ s.data, x < 2 ^ 64)
    (hlen : s.data.length = (s.bits_per_item * VOLUME W H D + 64 - 1) / 64) :
    ∃ s', s.repack nb = some s' ∧
      s'.palette = s.palette ∧ s'.bits_per_item = nb ∧
      s'.data.length = (nb * VOLUME W H D + 64 - 1) / 64 ∧
      (∀ x ∈ s'.data, x < 2 ^ 64) ∧
      (∀ i, i < VOLUME W H D → s'.palette_index i = s.palette_index i) ∧
      (∀ n, nb * VOLUME W H D ≤ n → bitAt s'.data n = false) := by
  have hsome : ∀ i ∈ List.range (VOLUME W H D), (s.palette_index i).isSome = true :=
    fun i hi =>
      palette_index_isSome s i hb1 (fit_of_lt (List.mem_range.mp hi) hlen)
  unfold Section.repack
  rw [collect_indices_spec s _ hsome]
  have hiv : ∀ j, j < VOLUME W H D →
      ((List.range (VOLUME W H D)).map
        (fun i => (s.palette_index i).getD 0))[j]?
        = some ((s.palette_index j).getD 0) := by
    intro j hj
    rw [List.getElem?_map, List.getElem?_range hj]
    rfl
  have hw1 : ∀ x ∈ (Section.mk
      (List.replicate ((nb * VOLUME W H D + BITS_PER_WORD - 1) / BITS_PER_WORD) 0)
      s.palette nb : Section W H D).data, x < 2 ^ 64 := by
    intro x hx
    have hx0 := List.eq_of_mem_replicate hx
    subst hx0
    norm_num
  have hlen1 : (Section.mk
      (List.replicate ((nb * VOLUME W H D + BITS_PER_WORD - 1) / BITS_PER_WORD) 0)
      s.palette nb : Section W H D).data.length
      = ((Section.mk
          (List.replicate ((nb * VOLUME W H D + BITS_PER_WORD - 1) / BITS_PER_WORD) 0)
          s.palette nb : Section W H D).bits_per_item * VOLUME W H D + 64 - 1) / 64 := by
    simp [BITS_PER_WORD]
  obtain ⟨s', hgo, hpal', hbi', hlen', hw', hmem', hout', hslack'⟩ :=
    repack_go_spec ((List.range (VOLUME W H D)).map
        (fun i => (s.palette_index i).getD 0))
      (fun i => (s.palette_index i).getD 0) (VOLUME W H D) hiv
      (List.range (VOLUME W H D))
      (Section.mk
        (List.replicate ((nb * VOLUME W H D + BITS_PER_WORD - 1) / BITS_PER_WORD) 0)
        s.palette nb)
      (fun j hj => List.mem_range.mp hj)
      (List.nodup_range _) (show 1 ≤ nb by omega) (show nb ≤ 63 from hnb2) hw1 hlen1
      (by
        intro j hj
        obtain ⟨pi, hpi, hlt, hchar⟩ := palette_index_spec s j hb1 hb2 hw
          (fit_of_lt (List.mem_range.mp hj) hlen)
        show (s.palette_index j).getD 0 < 2 ^ nb
        have hfj : (s.palette_index j).getD 0 = pi := by
          rw [hpi]
          rfl
        rw [hfj]
        have hple : (2 : Nat) ^ s.bits_per_item ≤ 2 ^ nb :=
          Nat.pow_le_pow_right (by norm_num) hnb
        exact lt_of_lt_of_le hlt hple)
  refine ⟨s', hgo, hpal', hbi', by rw [hlen']; simp [BITS_PER_WORD], hw', ?_, ?_⟩
  · intro i hi
    rw [hmem' i (List.mem_range.mpr hi)]
    obtain ⟨pi, hpi⟩ := Option.isSome_iff_exists.mp
      (hsome i (List.mem_range.mpr hi))
    rw [hpi]
    rfl
  · intro n hn
    rw [hslack' n (by exact hn)]
    exact bitAt_replicate_zero _ _

/-- `repack` succeeds on well-sized data for any positive target width. -/
theorem repack_isSome (s : Section W H D) (nb : Nat)
    (hb1 : 1 ≤ s.bits_per_item) (hnb1 : 1 ≤ nb)
    (hlen : s.data.length = (s.bits_per_item * VOLUME W H D + 64 - 1) / 64) :
    ∃ s', s.repack nb = some s' ∧ s'.palette = s.palette ∧ s'.bits_per_item = nb ∧
      s'.data.length = (nb * VOLUME W H D + 64 - 1) / 64 := by
  have hsome : ∀ i ∈ List.range (VOLUME W H D), (s.palette_index i).isSome = true :=
    fun i hi =>
      palette_index_isSome s i hb1 (fit_of_lt (List.mem_range.mp hi) hlen)
  unfold Section.repack
  rw [collect_indices_spec s _ hsome]
  have hiv : ∀ j, j < VOLUME W H D →
      (((List.range (VOLUME W H D)).map
        (fun i => (s.palette_index i).getD 0))[j]?).isSome = true := by
    intro j hj
    rw [List.getElem?_map, List.getElem?_range hj]
    rfl
  have hlen1 : (Section.mk
      (List.replicate ((nb * VOLUME W H D + BITS_PER_WORD - 1) / BITS_PER_WORD) 0)
      s.palette nb : Section W H D).data.length
      = ((Section.mk
          (List.replicate ((nb * VOLUME W H D + BITS_PER_WORD - 1) / BITS_PER_WORD) 0)
          s.palette nb : Section W H D).bits_per_item * VOLUME W H D + 64 - 1) / 64 := by
    simp [BITS_PER_WORD]
  obtain ⟨s', hgo, hpal', hbi', hlen'⟩ :=
    repack_go_isSome ((List.range (VOLUME W H D)).map
        (fun i => (s.palette_index i).getD 0)) (VOLUME W H D) hiv
      (List.range (VOLUME W H D))
      (Section.mk
        (List.replicate ((nb * VOLUME W H D + BITS_PER_WORD - 1) / BITS_PER_WORD) 0)
        s.palette nb)
      (fun j hj => List.mem_range.mp hj) (show 1 ≤ nb by omega) hlen1
  exact ⟨s', hgo, hpal', hbi', by rw [hlen']; simp [BITS_PER_WORD]⟩

theorem position_eq_getElem {v : Nat} {l : List Nat} {k : Nat}
    (h : position_eq v l = some k) : l[k]? = some v := by
  induction l generalizing k with
  | nil => simp [position_eq] at h
  | cons x rest ih =>
    unfold position_eq at h
    by_cases hx : x == v
    · rw [if_pos hx] at h
      cases h
      have hxv : x = v := by simpa using hx
      simp [hxv]
    · rw [if_neg hx] at h
      cases hpr : position_eq v rest with
      | none => rw [hpr] at h; simp at h
      | some k' =>
        rw [hpr] at h
        simp at h
        subst h
        simpa using ih hpr

theorem position_eq_lt {v : Nat} {l : List Nat} {k : Nat}
    (h : position_eq v l = some k) : k < l.length := by
  have hg := position_eq_getElem h
  by_cases hk : k < l.length
  · exact hk
  · rw [List.getElem?_eq_none (by omega)] at hg
    cases hg

theorem position_eq_none {v : Nat} {l : List Nat}
    (h : position_eq v l = none) : ∀ x ∈ l, x ≠ v := by
  induction l with
  | nil => simp
  | cons x rest ih =>
    unfold position_eq at h
    by_cases hx : x == v
    · rw [if_pos hx] at h
      cases h
    · rw [if_neg hx] at h
      intro y hy
      rcases List.mem_cons.mp hy with hy1 | hy2
      · subst hy1
        exact fun hc => hx (by simp [hc])
      · cases hpr : position_eq v rest with
        | none => exact ih hpr y hy2
        | some k' => rw [hpr] at h; simp at h

theorem position_eq_append_of_none {v : Nat} {l : List Nat}
    (h : position_eq v l = none) : position_eq v (l ++ [v]) = some l.length := by
  induction l with
  | nil => simp [position_eq]
  | cons x rest ih =>
    rw [List.cons_append]
    simp only [position_eq] at h ⊢
    by_cases hx : x == v
    · rw [if_pos hx] at h
      cases h
    · rw [if_neg hx] at h ⊢
      cases hpr : position_eq v rest with
      | none =>
        rw [ih hpr]
        simp
      | some k' => rw [hpr] at h; simp at h

theorem position_eq_replicate_zero {v m : Nat} (hv : v ≠ 0) :
    position_eq v (List.replicate m 0) = none := by
  induction m with
  | zero => rfl
  | succ m ih =>
    rw [List.replicate_succ]
    unfold position_eq
    rw [if_neg (by simpa using fun hc => hv hc.symm), ih]
    rfl

theorem natAsI32_of_lt {n : Nat} (h : n < 2 ^ 31) : natAsI32 n = n := by
  unfold natAsI32
  have h32 : n % 2 ^ 32 = n := Nat.mod_eq_of_lt (by omega)
  rw [h32, if_pos (by omega)]

/-- With dimensions in `i32` range, the source's bounds check succeeds
exactly on the claim-level in-bounds positions. -/
theorem check_ok_iff (hW : W < 2 ^ 31) (hH : H < 2 ^ 31) (hD : D < 2 ^ 31) (p : IVec3) :
    check_position_in_bounds W H D p = Except.ok () ↔
      (0 ≤ p.x ∧ p.x < (W : Int) ∧ 0 ≤ p.y ∧ p.y < (H : Int) ∧
        0 ≤ p.z ∧ p.z < (D : Int)) := by
  unfold check_position_in_bounds
  rw [natAsI32_of_lt hW, natAsI32_of_lt hH, natAsI32_of_lt hD]
  by_cases hc : p.x < 0 ∨ (W : Int) ≤ p.x ∨ p.y < 0 ∨ (H : Int) ≤ p.y ∨
      p.z < 0 ∨ (D : Int) ≤ p.z
  · rw [if_pos hc]
    constructor
    · intro h
      cases h
    · intro hb
      exfalso
      omega
  · rw [if_neg hc]
    constructor
    · intro _
      omega
    · intro _
      rfl

theorem check_error_of_out (p : IVec3)
    (hW : W < 2 ^ 31) (hH : H < 2 ^ 31) (hD : D < 2 ^ 31)
    (hout : p.x < 0 ∨ (W : Int) ≤ p.x ∨ p.y < 0 ∨ (H : Int) ≤ p.y ∨
      p.z < 0 ∨ (D : Int) ≤ p.z) :
    check_position_in_bounds W H D p = Except.error (BoundsError.OutOfBounds p) := by
  unfold check_position_in_bounds
  rw [natAsI32_of_lt hW, natAsI32_of_lt hH, natAsI32_of_lt hD, if_pos hout]

theorem asUsize_of_nonneg {x : Int} (h1 : 0 ≤ x) (h2 : x < 2 ^ 63) :
    asUsize x = x.toNat := by
  unfold asUsize
  rw [Int.emod_eq_of_lt h1 (by omega)]

/-- In-bounds positions flatten to an index below the volume. -/
theorem item_index_lt (p : IVec3) (hW : W < 2 ^ 31) (hH : H < 2 ^ 31) (hD : D < 2 ^ 31)
    (hin : 0 ≤ p.x ∧ p.x < (W : Int) ∧ 0 ≤ p.y ∧ p.y < (H : Int) ∧
      0 ≤ p.z ∧ p.z < (D : Int)) :
    item_index H D p < VOLUME W H D := by
  obtain ⟨hx0, hxW, hy0, hyH, hz0, hzD⟩ := hin
  unfold item_index VOLUME
  rw [asUsize_of_nonneg hx0 (by omega), asUsize_of_nonneg hy0 (by omega),
    asUsize_of_nonneg hz0 (by omega)]
  have hxe : (p.x.toNat : Int) = p.x := Int.toNat_of_nonneg hx0
  have hye : (p.y.toNat : Int) = p.y := Int.toNat_of_nonneg hy0
  have hze : (p.z.toNat : Int) = p.z := Int.toNat_of_nonneg hz0
  have hxn : p.x.toNat < W := by omega
  have hyn : p.y.toNat < H := by omega
  have hzn : p.z.toNat < D := by omega
  calc p.x.toNat * (H * D) + p.y.toNat * D + p.z.toNat
      < p.x.toNat * (H * D) + p.y.toNat * D + D := by omega
  _ = p.x.toNat * (H * D) + (p.y.toNat + 1) * D := by ring
  _ ≤ p.x.toNat * (H * D) + H * D := by
      have h6 := Nat.mul_le_mul_right (k := D) (show p.y.toNat + 1 ≤ H by omega)
      omega
  _ = (p.x.toNat + 1) * (H * D) := by ring
  _ ≤ W * (H * D) := Nat.mul_le_mul_right _ (show p.x.toNat + 1 ≤ W by omega)
  _ = W * H * D := by ring

/-- Row-major flattening is injective on in-bounds positions. -/
theorem item_index_inj (p1 p2 : IVec3)
    (hW : W < 2 ^ 31) (hH : H < 2 ^ 31) (hD : D < 2 ^ 31)
    (hin1 : 0 ≤ p1.x ∧ p1.x < (W : Int) ∧ 0 ≤ p1.y ∧ p1.y < (H : Int) ∧
      0 ≤ p1.z ∧ p1.z < (D : Int))
    (hin2 : 0 ≤ p2.x ∧ p2.x < (W : Int) ∧ 0 ≤ p2.y ∧ p2.y < (H : Int) ∧
      0 ≤ p2.z ∧ p2.z < (D : Int))
    (heq : item_index H D p1 = item_index H D p2) : p1 = p2 := by
  obtain ⟨hx0, hxW, hy0, hyH, hz0, hzD⟩ := hin1
  obtain ⟨hx0', hxW', hy0', hyH', hz0', hzD'⟩ := hin2
  unfold item_index at heq
  rw [asUsize_of_nonneg hx0 (by omega), asUsize_of_nonneg hy0 (by omega),
    asUsize_of_nonneg hz0 (by omega), asUsize_of_nonneg hx0' (by omega),
    asUsize_of_nonneg hy0' (by omega), asUsize_of_nonneg hz0' (by omega)] at heq
  have hxe : (p1.x.toNat : Int) = p1.x := Int.toNat_of_nonneg hx0
  have hye : (p1.y.toNat : Int) = p1.y := Int.toNat_of_nonneg hy0
  have hze : (p1.z.toNat : Int) = p1.z := Int.toNat_of_nonneg hz0
  have hxe' : (p2.x.toNat : Int) = p2.x := Int.toNat_of_nonneg hx0'
  have hye' : (p2.y.toNat : Int) = p2.y := Int.toNat_of_nonneg hy0'
  have hze' : (p2.z.toNat : Int) = p2.z := Int.toNat_of_nonneg hz0'
  have hyn : p1.y.toNat < H := by omega
  have hzn : p1.z.toNat < D := by omega
  have hyn' : p2.y.toNat < H := by omega
  have hzn' : p2.z.toNat < D := by omega
  have hD0 : 0 < D := by omega
  have hH0 : 0 < H := by omega
  have heq2 : (p1.x.toNat * H + p1.y.toNat) * D + p1.z.toNat
      = (p2.x.toNat * H + p2.y.toNat) * D + p2.z.toNat := by
    calc (p1.x.toNat * H + p1.y.toNat) * D + p1.z.toNat
        = p1.x.toNat * (H * D) + p1.y.toNat * D + p1.z.toNat := by ring
    _ = p2.x.toNat * (H * D) + p2.y.toNat * D + p2.z.toNat := heq
    _ = (p2.x.toNat * H + p2.y.toNat) * D + p2.z.toNat := by ring
  have hsplit : ∀ a b a' b' : Nat, b < D → b' < D → a * D + b = a' * D + b' →
      a = a' ∧ b = b' := by
    intro a b a' b' hb hb' he
    have h1 : (a * D + b) / D = a := by
      rw [Nat.mul_comm a D, Nat.mul_add_div hD0, Nat.div_eq_of_lt hb]
      omega
    have h2 : (a' * D + b') / D = a' := by
      rw [Nat.mul_comm a' D, Nat.mul_add_div hD0, Nat.div_eq_of_lt hb']
      omega
    have ha : a = a' := by rw [← h1, ← h2, he]
    constructor
    · exact ha
    · subst ha
      omega
  obtain ⟨hzup, hzeq⟩ := hsplit _ _ _ _ hzn hzn' heq2
  have hsplit2 : ∀ a b a' b' : Nat, b < H → b' < H → a * H + b = a' * H + b' →
      a = a' ∧ b = b' := by
    intro a b a' b' hb hb' he
    have h1 : (a * H + b) / H = a := by
      rw [Nat.mul_comm a H, Nat.mul_add_div hH0, Nat.div_eq_of_lt hb]
      omega
    have h2 : (a' * H + b') / H = a' := by
      rw [Nat.mul_comm a' H, Nat.mul_add_div hH0, Nat.div_eq_of_lt hb']
      omega
    have ha : a = a' := by rw [← h1, ← h2, he]
    constructor
    · exact ha
    · subst ha
      omega
  obtain ⟨hxeq, hyeq⟩ := hsplit2 _ _ _ _ hyn hyn' hzup
  have hfx : p1.x = p2.x := by omega
  have hfy : p1.y = p2.y := by omega
  have hfz : p1.z = p2.z := by omega
  cases p1
  cases p2
  simp only [IVec3.mk.injEq]
  exact ⟨hfx, hfy, hfz⟩

/-- The well-formedness invariant of a live section: positive encodable
width, exactly sized data of genuine 64-bit words, zero slack bits above
the packed range, default palette head, palette within addressable range,
and every cell decoding to a live palette index. -/
def WF (s : Section W H D) : Prop :=
  1 ≤ s.bits_per_item ∧
  s.bits_per_item ≤ 63 ∧
  s.data.length = (s.bits_per_item * VOLUME W H D + 64 - 1) / 64 ∧
  (∀ x ∈ s.data, x < 2 ^ 64) ∧
  (∀ n, n < 64 * s.data.length → s.bits_per_item * VOLUME W H D ≤ n →
    bitAt s.data n = false) ∧
  s.palette[0]? = some 0 ∧
  s.palette.length ≤ 2 ^ s.bits_per_item ∧
  (∀ i, i < VOLUME W H D →
    (s.palette_index i).isSome = true ∧ (s.palette_index i).getD 0 < s.palette.length)

theorem WF_slack {s : Section W H D} (h : WF s) :
    ∀ n, s.bits_per_item * VOLUME W H D ≤ n → bitAt s.data n = false := by
  intro n hn
  by_cases hb : n < 64 * s.data.length
  · exact h.2.2.2.2.1 n hb hn
  · exact bitAt_oob (by omega)

theorem palette_index_set_palette (s : Section W H D) (P : List Nat) (i : Nat) :
    ({ s with palette := P } : Section W H D).palette_index i = s.palette_index i := rfl

theorem getElem?_some_lt {l : List Nat} {k v : Nat} (h : l[k]? = some v) :
    k < l.length := by
  by_cases hk : k < l.length
  · exact hk
  · rw [List.getElem?_eq_none (by omega)] at h
    cases h

/-- Master behavior of a successful bounds-checked write from a
well-formed state: the call returns `Ok(())`, well-formedness is
preserved, the palette only grows at the tail, the written value sits in
the palette at the index the cell now decodes to, and every other cell
decodes exactly as before. -/
theorem set_item_spec (s : Section W H D) (p : IVec3) (v : Nat)
    (hW : W < 2 ^ 31) (hH : H < 2 ^ 31) (hD : D < 2 ^ 31)
    (hWF : WF s)
    (hng : s.palette.length < 2 ^ 63 ∨ s.bits_per_item ≤ 62)
    (hin : 0 ≤ p.x ∧ p.x < (W : Int) ∧ 0 ≤ p.y ∧ p.y < (H : Int) ∧
      0 ≤ p.z ∧ p.z < (D : Int)) :
    ∃ s' pi, s.set_item p v = some (s', Except.ok ()) ∧
      WF s' ∧
      (∃ t, s'.palette = s.palette ++ t) ∧
      s'.palette[pi]? = some v ∧
      pi < s'.palette.length ∧
      position_eq v s'.palette = some pi ∧
      s'.palette_index (item_index H D p) = some pi ∧
      (∀ j, j < VOLUME W H D → j ≠ item_index H D p →
        s'.palette_index j = s.palette_index j) ∧
      (v ≠ 0 → pi ≠ 0) := by
  obtain ⟨hb1, hb2, hlen, hwords, hslackb, hhead, hple, hcells⟩ := hWF
  have hslack : ∀ n, s.bits_per_item * VOLUME W H D ≤ n → bitAt s.data n = false :=
    WF_slack ⟨hb1, hb2, hlen, hwords, hslackb, hhead, hple, hcells⟩
  have hcheck : check_position_in_bounds W H D p = Except.ok () :=
    (check_ok_iff hW hH hD p).mpr hin
  have hi : item_index H D p < VOLUME W H D := item_index_lt p hW hH hD hin
  have hplen : 0 < s.palette.length := getElem?_some_lt hhead
  cases hpos : position_eq v s.palette with
  | some k =>
    have hk : s.palette[k]? = some v := position_eq_getElem hpos
    have hklen : k < s.palette.length := getElem?_some_lt hk
    have hklt : k < 2 ^ s.bits_per_item := lt_of_lt_of_le hklen hple
    obtain ⟨s1, hex, hpal, hbi, hlen1, hw1, hdec, hother, hslack1⟩ :=
      set_item_ex_decode (VOLUME W H D) s (item_index H D p) k hb1 hb2 hwords hlen hi hklt
    have hrun : s.set_item_unchecked p v = some s1 := by
      unfold Section.set_item_unchecked
      rw [hpos]
      simpa using hex
    have hk0 : v ≠ 0 → k ≠ 0 := by
      intro hv hk0
      subst hk0
      rw [hhead] at hk
      exact hv (Option.some.inj hk).symm
    refine ⟨s1, k, ?_, ?_, ⟨[], by simp [hpal]⟩, ?_, ?_, ?_, hdec, hother, hk0⟩
    · simp [Section.set_item, hcheck, hrun]
    · refine ⟨?_, ?_, ?_, hw1, ?_, ?_, ?_, ?_⟩
      · rw [hbi]
        exact hb1
      · rw [hbi]
        exact hb2
      · rw [hlen1, hbi]
        exact hlen
      · intro n hn1 hn2
        rw [hbi] at hn2
        rw [hslack1 n hn2]
        exact hslack n hn2
      · rw [hpal]
        exact hhead
      · rw [hpal, hbi]
        exact hple
      · intro j hj
        by_cases hji : j = item_index H D p
        · subst hji
          rw [hdec]
          refine ⟨rfl, ?_⟩
          rw [hpal]
          exact hklen
        · rw [hother j hj hji, hpal]
          exact hcells j hj
    · rw [hpal]
      exact hk
    · rw [hpal]
      exact hklen
    · rw [hpal]
      exact hpos
  | none =>
    by_cases htr : 1 <<< s.bits_per_item ≤ s.palette.length
    · have htr' : (2 : Nat) ^ s.bits_per_item ≤ s.palette.length := by
        rw [Nat.one_shiftLeft] at htr
        exact htr
      have htre : s.palette.length = 2 ^ s.bits_per_item := le_antisymm hple htr'
      have hb62 : s.bits_per_item ≤ 62 := by
        rcases hng with hng1 | hng2
        · have hlt63 : (2 : Nat) ^ s.bits_per_item < 2 ^ 63 := by omega
          have := (Nat.pow_lt_pow_iff_right (by norm_num : (1 : Nat) < 2)).mp hlt63
          omega
        · exact hng2
      obtain ⟨s2, hrep, hpal2, hbi2, hlen2, hw2, hdecs, hslack2⟩ :=
        repack_spec ({ s with palette := s.palette ++ [v] }) (s.bits_per_item + 1)
          hb1 hb2 (show s.bits_per_item ≤ s.bits_per_item + 1 by omega)
          (show s.bits_per_item + 1 ≤ 63 by omega) hwords hlen
      have hnewlt : s.palette.length < 2 ^ s2.bits_per_item := by
        rw [hbi2, htre]
        exact Nat.pow_lt_pow_right (by norm_num) (by omega)
      obtain ⟨s3, hex, hpal3, hbi3, hlen3, hw3, hdec3, hother3, hslack3⟩ :=
        set_item_ex_decode (VOLUME W H D) s2 (item_index H D p) s.palette.length
          (by rw [hbi2]; omega) (by rw [hbi2]; omega) hw2
          (by rw [hlen2, hbi2]) hi hnewlt
      have hrun : s.set_item_unchecked p v = some s3 := by
        unfold Section.set_item_unchecked
        rw [hpos]
        dsimp only
        rw [if_pos htr, hrep]
        simpa using hex
      have hp2b : (2 : Nat) ^ (s.bits_per_item + 1) = 2 * 2 ^ s.bits_per_item := by
        ring
      refine ⟨s3, s.palette.length, ?_, ?_, ⟨[v], by rw [hpal3, hpal2]⟩,
        ?_, ?_, ?_, hdec3, ?_, ?_⟩
      · simp [Section.set_item, hcheck, hrun]
      · refine ⟨?_, ?_, ?_, hw3, ?_, ?_, ?_, ?_⟩
        · rw [hbi3, hbi2]
          omega
        · rw [hbi3, hbi2]
          omega
        · rw [hlen3, hlen2, hbi3, hbi2]
        · intro n hn1 hn2
          rw [hbi3, hbi2] at hn2
          rw [hslack3 n (by rw [hbi2]; exact hn2)]
          exact hslack2 n hn2
        · rw [hpal3, hpal2]
          show (s.palette ++ [v])[0]? = some 0
          rw [List.getElem?_append_left hplen]
          exact hhead
        · rw [hpal3, hpal2, hbi3, hbi2]
          show (s.palette ++ [v]).length ≤ 2 ^ (s.bits_per_item + 1)
          rw [List.length_append, List.length_singleton]
          omega
        · intro j hj
          by_cases hji : j = item_index H D p
          · subst hji
            rw [hdec3]
            refine ⟨rfl, ?_⟩
            rw [hpal3, hpal2]
            show s.palette.length < (s.palette ++ [v]).length
            simp
          · rw [hother3 j hj hji, hdecs j hj, palette_index_set_palette, hpal3, hpal2]
            obtain ⟨hc1, hc2⟩ := hcells j hj
            refine ⟨hc1, ?_⟩
            show (s.palette_index j).getD 0 < (s.palette ++ [v]).length
            rw [List.length_append, List.length_singleton]
            omega
      · rw [hpal3, hpal2]
        show (s.palette ++ [v])[s.palette.length]? = some v
        exact List.getElem?_concat_length _ _
      · rw [hpal3, hpal2]
        show s.palette.length < (s.palette ++ [v]).length
        simp
      · rw [hpal3, hpal2]
        show position_eq v (s.palette ++ [v]) = some s.palette.length
        exact position_eq_append_of_none hpos
      · intro j hj hji
        rw [hother3 j hj hji, hdecs j hj, palette_index_set_palette]
      · intro _
        omega
    · have hlt2 : s.palette.length < 2 ^ s.bits_per_item := by
        rw [Nat.one_shiftLeft] at htr
        omega
      obtain ⟨s3, hex, hpal3, hbi3, hlen3, hw3, hdec3, hother3, hslack3⟩ :=
        set_item_ex_decode (VOLUME W H D) ({ s with palette := s.palette ++ [v] })
          (item_index H D p) s.palette.length hb1 hb2 hwords hlen hi hlt2
      have hrun : s.set_item_unchecked p v = some s3 := by
        unfold Section.set_item_unchecked
        rw [hpos]
        dsimp only
        rw [if_neg htr]
        simpa using hex
      refine ⟨s3, s.palette.length, ?_, ?_, ⟨[v], by rw [hpal3]⟩,
        ?_, ?_, ?_, hdec3, ?_, ?_⟩
      · simp [Section.set_item, hcheck, hrun]
      · refine ⟨?_, ?_, ?_, hw3, ?_, ?_, ?_, ?_⟩
        · rw [hbi3]
          exact hb1
        · rw [hbi3]
          exact hb2
        · rw [hlen3, hbi3]
          exact hlen
        · intro n hn1 hn2
          rw [hbi3] at hn2
          rw [hslack3 n hn2]
          exact hslack n hn2
        · rw [hpal3]
          show (s.palette ++ [v])[0]? = some 0
          rw [List.getElem?_append_left hplen]
          exact hhead
        · rw [hpal3, hbi3]
          show (s.palette ++ [v]).length ≤ 2 ^ s.bits_per_item
          rw [List.length_append, List.length_singleton]
          omega
        · intro j hj
          by_cases hji : j = item_index H D p
          · subst hji
            rw [hdec3]
            refine ⟨rfl, ?_⟩
            rw [hpal3]
            show s.palette.length < (s.palette ++ [v]).length
            simp
          · rw [hother3 j hj hji, palette_index_set_palette]
            obtain ⟨hc1, hc2⟩ := hcells j hj
            refine ⟨hc1, ?_⟩
            rw [hpal3]
            show (s.palette_index j).getD 0 < (s.palette ++ [v]).length
            rw [List.length_append, List.length_singleton]
            omega
      · rw [hpal3]
        show (s.palette ++ [v])[s.palette.length]? = some v
        exact List.getElem?_concat_length _ _
      · rw [hpal3]
        show s.palette.length < (s.palette ++ [v]).length
        simp
      · rw [hpal3]
        show position_eq v (s.palette ++ [v]) = some s.palette.length
        exact position_eq_append_of_none hpos
      · intro j hj hji
        rw [hother3 j hj hji, palette_index_set_palette]
      · intro _
        omega

theorem repack_go_structure {idxs : List Nat} {l : List Nat} :
    ∀ {t t' : Section W H D}, repack_go idxs t l = some t' →
      t'.palette = t.palette ∧ t'.bits_per_item = t.bits_per_item ∧
      t'.data.length = t.data.length := by
  induction l with
  | nil =>
    intro t t' h
    cases h
    exact ⟨rfl, rfl, rfl⟩
  | cons i rest ih =>
    intro t t' h
    unfold repack_go at h
    cases hp : idxs[i]? with
    | none => rw [hp] at h; cases h
    | some pi =>
      rw [hp] at h
      simp only [] at h
      cases hex : t.set_item_ex i pi with
      | none => rw [hex] at h; cases h
      | some t1 =>
        rw [hex] at h
        simp only [] at h
        obtain ⟨h1, h2, h3⟩ := ih h
        obtain ⟨g1, g2, g3⟩ := set_item_ex_structure hex
        exact ⟨h1.trans g1, h2.trans g2, h3.trans g3⟩

theorem repack_structure {s s2 : Section W H D} {nb : Nat}
    (h : s.repack nb = some s2) :
    s2.palette = s.palette ∧ s2.bits_per_item = nb ∧
      s2.data.length = (nb * VOLUME W H D + 64 - 1) / 64 := by
  unfold Section.repack at h
  cases hc : collect_indices s (List.range (VOLUME W H D)) with
  | none => rw [hc] at h; cases h
  | some idxs =>
    rw [hc] at h
    simp only [] at h
    obtain ⟨h1, h2, h3⟩ := repack_go_structure h
    refine ⟨h1, h2, ?_⟩
    rw [h3]
    simp [BITS_PER_WORD]

/-- Any successful unchecked write preserves the structural invariants
that reachability maintains: data sized to the width, palette within
`2 ^ bits_per_item`, zero at palette head, and a non-decreasing width. -/
theorem set_item_unchecked_structure {s s1 : Section W H D} {pos : IVec3} {v : Nat}
    (hlen : s.data.length = (s.bits_per_item * VOLUME W H D + 64 - 1) / 64)
    (hple : s.palette.length ≤ 2 ^ s.bits_per_item)
    (hhead : s.palette[0]? = some 0)
    (h : s.set_item_unchecked pos v = some s1) :
    s1.data.length = (s1.bits_per_item * VOLUME W H D + 64 - 1) / 64 ∧
      s1.palette.length ≤ 2 ^ s1.bits_per_item ∧
      s1.palette[0]? = some 0 := by
  have hplen : 0 < s.palette.length := getElem?_some_lt hhead
  unfold Section.set_item_unchecked at h
  cases hpos : position_eq v s.palette with
  | some k =>
    rw [hpos] at h
    simp only [] at h
    obtain ⟨g1, g2, g3⟩ := set_item_ex_structure h
    rw [g1, g2, g3]
    exact ⟨hlen, hple, hhead⟩
  | none =>
    rw [hpos] at h
    dsimp only at h
    by_cases htr : 1 <<< s.bits_per_item ≤ s.palette.length
    · rw [if_pos htr] at h
      cases hrep : Section.repack { s with palette := s.palette ++ [v] }
          (s.bits_per_item + 1) with
      | none => rw [hrep] at h; cases h
      | some s2 =>
        rw [hrep] at h
        simp only [] at h
        obtain ⟨r1, r2, r3⟩ := repack_structure hrep
        obtain ⟨g1, g2, g3⟩ := set_item_ex_structure h
        have hp2 : s2.palette = s.palette ++ [v] := r1
        have htr' : (2 : Nat) ^ s.bits_per_item ≤ s.palette.length := by
          rw [Nat.one_shiftLeft] at htr
          exact htr
        refine ⟨?_, ?_, ?_⟩
        · rw [g3, r3, g2, r2]
        · rw [g1, hp2, g2, r2, List.length_append, List.length_singleton]
          have h2p : (2 : Nat) ^ (s.bits_per_item + 1) = 2 * 2 ^ s.bits_per_item := by
            ring
          omega
        · rw [g1, hp2, List.getElem?_append_left hplen]
          exact hhead
    · rw [if_neg htr] at h
      simp only [] at h
      obtain ⟨g1, g2, g3⟩ := set_item_ex_structure h
      have hlt2 : s.palette.length < 2 ^ s.bits_per_item := by
        rw [Nat.one_shiftLeft] at htr
        omega
      refine ⟨?_, ?_, ?_⟩
      · rw [g3, g2]
        exact hlen
      · rw [g1, g2]
        show (s.palette ++ [v]).length ≤ 2 ^ s.bits_per_item
        rw [List.length_append, List.length_singleton]
        omega
      · rw [g1]
        show (s.palette ++ [v])[0]? = some 0
        rw [List.getElem?_append_left hplen]
        exact hhead

/-- Structural invariants of every reachable state. -/
theorem reachable_inv {s : Section W H D} (h : Reachable W H D s) :
    s.data.length = (s.bits_per_item * VOLUME W H D + 64 - 1) / 64 ∧
      s.palette.length ≤ 2 ^ s.bits_per_item ∧
      s.palette[0]? = some 0 := by
  induction h with
  | new b =>
    refine ⟨?_, ?_, ?_⟩
    · simp [Section.new, BITS_PER_WORD]
    · simp [Section.new, Nat.one_shiftLeft]
    · simp [Section.new, List.getElem?_replicate, Nat.one_shiftLeft,
        Nat.pos_pow_of_pos]
  | step pos v hR hstep ih =>
    obtain ⟨hlen, hple, hhead⟩ := ih
    rename_i s0 s1 e
    unfold Section.set_item at hstep
    cases hcheck : check_position_in_bounds W H D pos with
    | error e0 =>
      rw [hcheck] at hstep
      simp only [] at hstep
      obtain ⟨h1, _⟩ := Prod.mk.injEq .. ▸ (Option.some.inj hstep)
      rw [← h1]
      exact ⟨hlen, hple, hhead⟩
    | ok u =>
      rw [hcheck] at hstep
      simp only [] at hstep
      cases hun : s0.set_item_unchecked pos v with
      | none => rw [hun] at hstep; cases hstep
      | some st =>
        rw [hun] at hstep
        simp only [] at hstep
        have hst : st = s1 := by
          have := Option.some.inj hstep
          exact congrArg Prod.fst this
        subst hst
        exact set_item_unchecked_structure hlen hple hhead hun

theorem bitAt_zero_data {data : List Nat} (hz : ∀ x ∈ data, x = 0) (n : Nat) :
    bitAt data n = false := by
  unfold bitAt
  cases hg : data[n / 64]? with
  | none => simp [Nat.zero_testBit]
  | some w =>
    have : w = 0 := hz w (List.getElem?_mem hg)
    subst this
    simp [Nat.zero_testBit]

/-- On a well-formed state `is_empty` holds exactly when every cell
decodes to palette index 0. -/
theorem is_empty_iff_decode_zero (s : Section W H D) (hWF : WF s) :
    s.is_empty = true ↔ ∀ i, i < VOLUME W H D → s.palette_index i = some 0 := by
  obtain ⟨hb1, hb2, hlen, hwords, hslackb, hhead, hple, hcells⟩ := hWF
  have hslack : ∀ n, s.bits_per_item * VOLUME W H D ≤ n → bitAt s.data n = false :=
    WF_slack ⟨hb1, hb2, hlen, hwords, hslackb, hhead, hple, hcells⟩
  constructor
  · intro he i hi
    have hz : ∀ x ∈ s.data, x = 0 := by
      intro x hx
      have := (List.all_eq_true.mp he) x hx
      simpa using this
    obtain ⟨pi, hpi, hlt, hchar⟩ := palette_index_spec s i hb1 hb2 hwords
      (fit_of_lt hi hlen)
    rw [hpi]
    have : pi = 0 := by
      apply Nat.eq_of_testBit_eq
      intro k
      rw [hchar k, bitAt_zero_data hz, Nat.zero_testBit]
      simp
    rw [this]
  · intro hdec
    rw [Section.is_empty, List.all_eq_true]
    intro x hx
    obtain ⟨j, hj, hxj⟩ := List.mem_iff_getElem.mp hx
    suffices hx0 : x = 0 by simp [hx0]
    have hxlt : x < 2 ^ 64 := hwords x hx
    have hbits : ∀ m, m < 64 → x.testBit m = false := by
      intro m hm
      have hbit : bitAt s.data (64 * j + m) = x.testBit m := by
        unfold bitAt
        have hdiv : (64 * j + m) / 64 = j := by omega
        have hmod : (64 * j + m) % 64 = m := by omega
        rw [hdiv, hmod, List.getElem?_eq_getElem hj, hxj]
        rfl
      by_cases hbig : s.bits_per_item * VOLUME W H D ≤ 64 * j + m
      · rw [← hbit]
        exact hslack _ hbig
      · have hb0 : 0 < s.bits_per_item := hb1
        set n := 64 * j + m with hn
        have hsmall : n < s.bits_per_item * VOLUME W H D := by omega
        have hidm : s.bits_per_item * (n / s.bits_per_item) + n % s.bits_per_item = n :=
          Nat.div_add_mod n s.bits_per_item
        have hkb : n % s.bits_per_item < s.bits_per_item := Nat.mod_lt _ hb0
        have hiV : n / s.bits_per_item < VOLUME W H D := by
          rw [Nat.div_lt_iff_lt_mul hb0]
          calc n < s.bits_per_item * VOLUME W H D := hsmall
          _ = VOLUME W H D * s.bits_per_item := Nat.mul_comm _ _
        obtain ⟨pi, hpi, hlt, hchar⟩ := palette_index_spec s (n / s.bits_per_item)
          hb1 hb2 hwords (fit_of_lt hiV hlen)
        have hpi0 : pi = 0 := by
          have := hdec (n / s.bits_per_item) hiV
          rw [hpi] at this
          exact Option.some.inj this
        have hck := hchar (n % s.bits_per_item)
        rw [hpi0, Nat.zero_testBit] at hck
        have harg : n / s.bits_per_item * s.bits_per_item + n % s.bits_per_item = n := by
          have hcomm : n / s.bits_per_item * s.bits_per_item
              = s.bits_per_item * (n / s.bits_per_item) := Nat.mul_comm _ _
          omega
        rw [harg] at hck
        rw [← hbit]
        have := hck.symm
        simpa [hkb] using this
    apply Nat.eq_of_testBit_eq
    intro k
    by_cases hk : k < 64
    · rw [hbits k hk, Nat.zero_testBit]
    · rw [testBit_ge_64 hxlt (by omega), Nat.zero_testBit]

instance WF_decidable (s : Section W H D) : Decidable (WF s) := by
  unfold WF
  infer_instance

theorem item_eval (s : Section W H D) (p : IVec3) {pi w : Nat}
    (hcheck : check_position_in_bounds W H D p = Except.ok ())
    (hdec : s.palette_index (item_index H D p) = some pi)
    (hpal : s.palette[pi]? = some w) :
    s.item p = some (Except.ok w) := by
  simp [Section.item, Section.item_unchecked, hcheck, hdec, hpal]

/-- C1.  For every position `p` with `0 <= x < W`, `0 <= y < H`,
`0 <= z < D` and every 64-bit value `v`, on a well-formed state,
`set_item p v` returns `Ok(())` and a subsequent `item p` returns
`Ok(v)`. -/
theorem c1_round_trip (s : Section W H D) (p : IVec3) (v : Nat)
    (hW : W < 2 ^ 31) (hH : H < 2 ^ 31) (hD : D < 2 ^ 31)
    (hWF : WF s)
    (hng : s.palette.length < 2 ^ 63 ∨ s.bits_per_item ≤ 62)
    (hin : 0 ≤ p.x ∧ p.x < (W : Int) ∧ 0 ≤ p.y ∧ p.y < (H : Int) ∧
      0 ≤ p.z ∧ p.z < (D : Int))
    (hv : v < 2 ^ 64) :
    ∃ s', s.set_item p v = some (s', Except.ok ()) ∧
      s'.item p = some (Except.ok v) := by
  obtain ⟨s', pi, hcall, hWF', hpre, hpal, hpilt, hposq, hdec, hother, hnz⟩ :=
    set_item_spec s p v hW hH hD hWF hng hin
  exact ⟨s', hcall, item_eval s' p ((check_ok_iff hW hH hD p).mpr hin) hdec hpal⟩

theorem c1_round_trip_witness :
    ∃ s' : Section 1 1 1,
      (Section.new 1 1 1 1).set_item ⟨0, 0, 0⟩ 7 = some (s', Except.ok ()) ∧
      s'.item ⟨0, 0, 0⟩ = some (Except.ok 7) :=
  c1_round_trip (Section.new 1 1 1 1) ⟨0, 0, 0⟩ 7 (by decide) (by decide) (by decide)
    (by decide) (by decide) (by decide) (by decide)

/-- C4.  For every position with a coordinate below 0 or at or above its
dimension, both `item` and `set_item` return `OutOfBounds` carrying that
exact position, and `set_item` leaves the state untouched (the state
component of the returned pair is the input state itself). -/
theorem c4_bounds_rejection (s : Section W H D) (p : IVec3) (v : Nat)
    (hW : W < 2 ^ 31) (hH : H < 2 ^ 31) (hD : D < 2 ^ 31)
    (hout : p.x < 0 ∨ (W : Int) ≤ p.x ∨ p.y < 0 ∨ (H : Int) ≤ p.y ∨
      p.z < 0 ∨ (D : Int) ≤ p.z) :
    s.item p = some (Except.error (BoundsError.OutOfBounds p)) ∧
      s.set_item p v = some (s, Except.error (BoundsError.OutOfBounds p)) := by
  have hc := check_error_of_out p hW hH hD hout
  constructor
  · simp [Section.item, hc]
  · simp [Section.set_item, hc]

theorem c4_bounds_rejection_witness :
    (Section.new 4 4 4 1).item ⟨-1, 0, 0⟩
        = some (Except.error (BoundsError.OutOfBounds ⟨-1, 0, 0⟩)) ∧
      (Section.new 4 4 4 1).set_item ⟨-1, 0, 0⟩ 1
        = some (Section.new 4 4 4 1, Except.error (BoundsError.OutOfBounds ⟨-1, 0, 0⟩)) :=
  c4_bounds_rejection (Section.new 4 4 4 1) ⟨-1, 0, 0⟩ 1 (by decide) (by decide)
    (by decide) (by decide)

/-- C5.  In every state reachable from `Section::new b` through `set_item`
calls that complete, `2 ^ bits_per_item >= palette.len()` holds. -/
theorem c5_palette_capacity (s : Section W H D) (h : Reachable W H D s) :
    s.palette.length ≤ 2 ^ s.bits_per_item :=
  (reachable_inv h).2.1

theorem c5_palette_capacity_witness :
    (Section.new 1 1 1 2).palette.length
      ≤ 2 ^ (Section.new 1 1 1 2).bits_per_item :=
  c5_palette_capacity (Section.new 1 1 1 2) (Reachable.new 2)

/-- C7.  A successful write to `p1` does not change the value `item`
returns at any other in-bounds position `p2`. -/
theorem c7_non_interference (s : Section W H D) (p1 p2 : IVec3) (v : Nat)
    (hW : W < 2 ^ 31) (hH : H < 2 ^ 31) (hD : D < 2 ^ 31)
    (hWF : WF s)
    (hng : s.palette.length < 2 ^ 63 ∨ s.bits_per_item ≤ 62)
    (hin1 : 0 ≤ p1.x ∧ p1.x < (W : Int) ∧ 0 ≤ p1.y ∧ p1.y < (H : Int) ∧
      0 ≤ p1.z ∧ p1.z < (D : Int))
    (hin2 : 0 ≤ p2.x ∧ p2.x < (W : Int) ∧ 0 ≤ p2.y ∧ p2.y < (H : Int) ∧
      0 ≤ p2.z ∧ p2.z < (D : Int))
    (hne : p1 ≠ p2) :
    ∃ s', s.set_item p1 v = some (s', Except.ok ()) ∧
      s'.item p2 = s.item p2 := by
  obtain ⟨s', pi, hcall, hWF', ⟨t, hpre⟩, hpal, hpilt, hposq, hdec, hother, hnz⟩ :=
    set_item_spec s p1 v hW hH hD hWF hng hin1
  refine ⟨s', hcall, ?_⟩
  have hchk2 := (check_ok_iff hW hH hD p2).mpr hin2
  have hi2 := item_index_lt p2 hW hH hD hin2
  have hne' : item_index H D p2 ≠ item_index H D p1 := fun hc =>
    hne (item_index_inj p2 p1 hW hH hD hin2 hin1 hc).symm
  have hdec2 := hother (item_index H D p2) hi2 hne'
  obtain ⟨hb1, hb2, hlen, hwords, hslackb, hhead, hple, hcells⟩ := hWF
  obtain ⟨hq1, hq2⟩ := hcells _ hi2
  obtain ⟨q, hq⟩ := Option.isSome_iff_exists.mp hq1
  have hqlt : q < s.palette.length := by
    rw [hq] at hq2
    simpa using hq2
  unfold Section.item Section.item_unchecked
  rw [hchk2, hdec2, hq, hpre]
  simp [List.getElem?_append_left hqlt]

theorem c7_non_interference_witness :
    ∃ s' : Section 2 1 1,
      (Section.new 2 1 1 1).set_item ⟨0, 0, 0⟩ 5 = some (s', Except.ok ()) ∧
      s'.item ⟨1, 0, 0⟩ = (Section.new 2 1 1 1).item ⟨1, 0, 0⟩ :=
  c7_non_interference (Section.new 2 1 1 1) ⟨0, 0, 0⟩ ⟨1, 0, 0⟩ 5 (by decide)
    (by decide) (by decide) (by decide) (by decide) (by decide) (by decide) (by decide)

/-- C9.  Writing the same value to the same position twice in a row
produces exactly the state of writing it once: the second call returns the
state of the first unchanged. -/
theorem c9_idempotent (s : Section W H D) (p : IVec3) (v : Nat)
    (hW : W < 2 ^ 31) (hH : H < 2 ^ 31) (hD : D < 2 ^ 31)
    (hWF : WF s)
    (hng : s.palette.length < 2 ^ 63 ∨ s.bits_per_item ≤ 62)
    (hin : 0 ≤ p.x ∧ p.x < (W : Int) ∧ 0 ≤ p.y ∧ p.y < (H : Int) ∧
      0 ≤ p.z ∧ p.z < (D : Int)) :
    ∃ s', s.set_item p v = some (s', Except.ok ()) ∧
      s'.set_item p v = some (s', Except.ok ()) := by
  obtain ⟨s', pi, hcall, hWF', hpre, hpal, hpilt, hposq, hdec, hother, hnz⟩ :=
    set_item_spec s p v hW hH hD hWF hng hin
  refine ⟨s', hcall, ?_⟩
  have hcheck := (check_ok_iff hW hH hD p).mpr hin
  have hi := item_index_lt p hW hH hD hin
  obtain ⟨hb1', hb2', hlen', hwords', hs1, hs2, hs3, hs4⟩ := hWF'
  have hid : s'.set_item_ex (item_index H D p) pi = some s' :=
    set_item_ex_id s' _ pi hb1' hb2' hwords' (fit_of_lt hi hlen') hdec
  have hrun : s'.set_item_unchecked p v = some s' := by
    unfold Section.set_item_unchecked
    rw [hposq]
    simpa using hid
  simp [Section.set_item, hcheck, hrun]

theorem c9_idempotent_witness :
    ∃ s' : Section 1 1 1,
      (Section.new 1 1 1 1).set_item ⟨0, 0, 0⟩ 9 = some (s', Except.ok ()) ∧
      s'.set_item ⟨0, 0, 0⟩ 9 = some (s', Except.ok ()) :=
  c9_idempotent (Section.new 1 1 1 1) ⟨0, 0, 0⟩ 9 (by decide) (by decide) (by decide)
    (by decide) (by decide) (by decide)

/-- C2 counterexample.  The claim quantifies over every strictly larger
target width, but at width 64 the `u64` mask computation `(1 << 64) - 1`
truncates to zero, so repack zeroes the re-encoded indices: from a
well-formed one-cell section whose cell decodes to palette index 1, a
repack from width 1 to width 64 completes and the cell decodes to 0. -/
theorem c2_counterexample :
    WF (⟨[1], [0, 1], 1⟩ : Section 1 1 1) ∧
      (⟨[1], [0, 1], 1⟩ : Section 1 1 1).bits_per_item < 64 ∧
      Section.palette_index (⟨[1], [0, 1], 1⟩ : Section 1 1 1) 0 = some 1 ∧
      Section.repack (⟨[1], [0, 1], 1⟩ : Section 1 1 1) 64
        = some (⟨[0], [0, 1], 64⟩ : Section 1 1 1) ∧
      Section.palette_index (⟨[0], [0, 1], 64⟩ : Section 1 1 1) 0 = some 0 := by
  decide

/-- C2 (amended to target widths at most 63, forced by the width-64 mask
overflow).  Repack to a strictly larger width at most 63 leaves the
palette entirely unchanged and every cell's decoded palette index equal to
its decoded index before; consequently `item` re-reads every in-bounds
position to the same value after the repack. -/
theorem c2_repack_preserves (s : Section W H D) (nb : Nat)
    (hW : W < 2 ^ 31) (hH : H < 2 ^ 31) (hD : D < 2 ^ 31)
    (hWF : WF s) (hlt : s.bits_per_item < nb) (hnb : nb ≤ 63) :
    ∃ s', s.repack nb = some s' ∧ s'.palette = s.palette ∧
      (∀ i, i < VOLUME W H D → s'.palette_index i = s.palette_index i) ∧
      (∀ p, check_position_in_bounds W H D p = Except.ok () →
        s'.item p = s.item p) := by
  obtain ⟨hb1, hb2, hlen, hwords, hslackb, hhead, hple, hcells⟩ := hWF
  obtain ⟨s', hrep, hpal', hbi', hlen', hw', hdecs, hslack'⟩ :=
    repack_spec s nb hb1 hb2 (by omega) hnb hwords hlen
  refine ⟨s', hrep, hpal', hdecs, ?_⟩
  intro p hchk
  have hin := (check_ok_iff hW hH hD p).mp hchk
  have hi := item_index_lt p hW hH hD hin
  unfold Section.item Section.item_unchecked
  rw [hchk, hdecs _ hi, hpal']

theorem c2_repack_preserves_witness :
    ∃ s' : Section 1 1 1,
      (Section.new 1 1 1 1).repack 2 = some s' ∧
      s'.palette = (Section.new 1 1 1 1).palette ∧
      (∀ i, i < VOLUME 1 1 1 →
        s'.palette_index i = (Section.new 1 1 1 1).palette_index i) ∧
      (∀ p, check_position_in_bounds 1 1 1 p = Except.ok () →
        s'.item p = (Section.new 1 1 1 1).item p) :=
  c2_repack_preserves (Section.new 1 1 1 1) 2 (by decide) (by decide) (by decide)
    (by decide) (by decide) (by decide)

/-- C3 counterexample.  The claim quantifies over every state reachable
from construction, but `Section::new 0` is such a state and from it the
decode path of the bounds-checked read indexes `data[0]` of an empty word
array: the claim's no-out-of-range-access guarantee fails there (the
`none` models exactly that out-of-range index). -/
theorem c3_counterexample :
    Reachable 1 1 1 (Section.new 1 1 1 0) ∧
      check_position_in_bounds 1 1 1 ⟨0, 0, 0⟩ = Except.ok () ∧
      (Section.new 1 1 1 0).data.length = 0 ∧
      (Section.new 1 1 1 0).item ⟨0, 0, 0⟩ = none :=
  ⟨Reachable.new 0, by decide, by decide, by decide⟩

/-- C3 (amended to constructions with a positive width).  In every
reachable state with `bits_per_item >= 1`, for every in-bounds position,
the decoder and the encoder touch only word indices inside `data` (their
`Option` runs succeed, `none` being the model of an out-of-range access),
and the whole bounds-checked write path, repack included, never reads or
writes past the word array. -/
theorem c3_no_oob (s : Section W H D) (hR : Reachable W H D s)
    (hb : 1 ≤ s.bits_per_item)
    (hW : W < 2 ^ 31) (hH : H < 2 ^ 31) (hD : D < 2 ^ 31) (p : IVec3)
    (hin : 0 ≤ p.x ∧ p.x < (W : Int) ∧ 0 ≤ p.y ∧ p.y < (H : Int) ∧
      0 ≤ p.z ∧ p.z < (D : Int)) :
    (s.palette_index (item_index H D p)).isSome = true ∧
      (∀ pi, (s.set_item_ex (item_index H D p) pi).isSome = true) ∧
      (∀ v, (s.set_item p v).isSome = true) := by
  obtain ⟨hlen, hple, hhead⟩ := reachable_inv hR
  have hi := item_index_lt p hW hH hD hin
  have hfit := fit_of_lt hi hlen
  refine ⟨palette_index_isSome s _ hb hfit,
    fun pi => set_item_ex_isSome s _ pi hb hfit, ?_⟩
  intro v
  have hcheck := (check_ok_iff hW hH hD p).mpr hin
  suffices hun : (s.set_item_unchecked p v).isSome = true by
    obtain ⟨s1, hs1⟩ := Option.isSome_iff_exists.mp hun
    simp [Section.set_item, hcheck, hs1]
  unfold Section.set_item_unchecked
  cases hpos : position_eq v s.palette with
  | some k =>
    simpa using set_item_ex_isSome s _ k hb hfit
  | none =>
    dsimp only
    by_cases htr : 1 <<< s.bits_per_item ≤ s.palette.length
    · rw [if_pos htr]
      obtain ⟨s2, hrep, hpal2, hbi2, hlen2⟩ :=
        repack_isSome ({ s with palette := s.palette ++ [v] })
          (s.bits_per_item + 1) hb (by omega) hlen
      rw [hrep]
      have hfit2 := fit_of_lt hi
        (show s2.data.length = (s2.bits_per_item * VOLUME W H D + 64 - 1) / 64 by
          rw [hlen2, hbi2])
      simpa using set_item_ex_isSome s2 _ s.palette.length (by rw [hbi2]; omega) hfit2
    · rw [if_neg htr]
      simpa using set_item_ex_isSome ({ s with palette := s.palette ++ [v] })
        (item_index H D p) s.palette.length hb hfit

theorem c3_no_oob_witness :
    ((Section.new 1 1 1 1).palette_index (item_index 1 1 ⟨0, 0, 0⟩)).isSome = true ∧
      (∀ pi, ((Section.new 1 1 1 1).set_item_ex
        (item_index 1 1 ⟨0, 0, 0⟩) pi).isSome = true) ∧
      (∀ v, ((Section.new 1 1 1 1).set_item ⟨0, 0, 0⟩ v).isSome = true) :=
  c3_no_oob (Section.new 1 1 1 1) (Reachable.new 1) (by decide) (by decide)
    (by decide) (by decide) ⟨0, 0, 0⟩ (by decide)

theorem palette_index_nil {s : Section W H D} (h : s.data = []) (i : Nat) :
    s.palette_index i = none := by
  simp [Section.palette_index, h]

theorem set_item_ex_nil {s : Section W H D} (h : s.data = []) (i pi : Nat) :
    s.set_item_ex i pi = none := by
  unfold Section.set_item_ex
  rw [h]
  simp

/-- C6 counterexample.  The claim promises the width increase regardless
of the initially chosen `bits_per_item`, but with `bits_per_item = 0` the
first non-default write panics inside the triggered repack (decoding from
the zero-length word array) instead of completing with a widened
encoding. -/
theorem c6_counterexample :
    (Section.new 1 1 1 0).palette = [0] ∧
      check_position_in_bounds 1 1 1 ⟨0, 0, 0⟩ = Except.ok () ∧
      (Section.new 1 1 1 0).set_item ⟨0, 0, 0⟩ 7 = none := by
  decide

/-- C6 (amended to positive initial widths).  A fresh `Section::new b` has
a palette of exactly `2 ^ b` zero entries, so the first write of a nonzero
value finds no palette match, appends it at index `2 ^ b`, and triggers a
repack that leaves the state at width `b + 1`: a width increase occurs on
the first non-default write for every initial width `b >= 1`. -/
theorem set_item_trigger_run (s : Section W H D) (p : IVec3) (v : Nat)
    (hb : 1 ≤ s.bits_per_item)
    (hcheck : check_position_in_bounds W H D p = Except.ok ())
    (hi : item_index H D p < VOLUME W H D)
    (hlen : s.data.length = (s.bits_per_item * VOLUME W H D + 64 - 1) / 64)
    (hpos : position_eq v s.palette = none)
    (htr : 1 <<< s.bits_per_item ≤ s.palette.length) :
    ∃ s', s.set_item p v = some (s', Except.ok ()) ∧
      s'.bits_per_item = s.bits_per_item + 1 ∧
      s'.palette = s.palette ++ [v] := by
  obtain ⟨s2, hrep, hpal2, hbi2, hlen2⟩ :=
    repack_isSome ({ s with palette := s.palette ++ [v] })
      (s.bits_per_item + 1) hb (by omega) hlen
  have hfit2 := fit_of_lt hi
    (show s2.data.length = (s2.bits_per_item * VOLUME W H D + 64 - 1) / 64 by
      rw [hlen2, hbi2])
  obtain ⟨s3, hex3⟩ := Option.isSome_iff_exists.mp
    (set_item_ex_isSome s2 (item_index H D p) s.palette.length
      (by rw [hbi2]; omega) hfit2)
  obtain ⟨g1, g2, g3⟩ := set_item_ex_structure hex3
  have hrun : s.set_item_unchecked p v = some s3 := by
    unfold Section.set_item_unchecked
    rw [hpos]
    dsimp only
    rw [if_pos htr, hrep]
    simpa using hex3
  refine ⟨s3, ?_, ?_, ?_⟩
  · simp [Section.set_item, hcheck, hrun]
  · rw [g2, hbi2]
  · rw [g1, hpal2]

theorem c6_first_write_widens (b : Nat) (p : IVec3) (v : Nat)
    (hb : 1 ≤ b)
    (hW : W < 2 ^ 31) (hH : H < 2 ^ 31) (hD : D < 2 ^ 31)
    (hin : 0 ≤ p.x ∧ p.x < (W : Int) ∧ 0 ≤ p.y ∧ p.y < (H : Int) ∧
      0 ≤ p.z ∧ p.z < (D : Int))
    (hv : v ≠ 0) :
    (Section.new W H D b).palette = List.replicate (2 ^ b) 0 ∧
      position_eq v (Section.new W H D b).palette = none ∧
      ∃ s', (Section.new W H D b).set_item p v = some (s', Except.ok ()) ∧
        s'.bits_per_item = b + 1 ∧
        s'.palette = List.replicate (2 ^ b) 0 ++ [v] := by
  have hpal : (Section.new W H D b).palette = List.replicate (2 ^ b) 0 := by
    simp [Section.new, Nat.one_shiftLeft]
  have hpos : position_eq v (Section.new W H D b).palette = none := by
    rw [hpal]
    exact position_eq_replicate_zero hv
  have hcheck := (check_ok_iff hW hH hD p).mpr hin
  have hi := item_index_lt p hW hH hD hin
  have hlen0 : (Section.new W H D b).data.length
      = ((Section.new W H D b).bits_per_item * VOLUME W H D + 64 - 1) / 64 := by
    simp [Section.new, BITS_PER_WORD]
  have htr : 1 <<< (Section.new W H D b).bits_per_item
      ≤ (Section.new W H D b).palette.length := by
    simp [Section.new]
  obtain ⟨s3, hcall, hbits, hp⟩ :=
    set_item_trigger_run (Section.new W H D b) p v (show 1 ≤ b from hb)
      hcheck hi hlen0 hpos htr
  refine ⟨hpal, hpos, s3, hcall, hbits, ?_⟩
  rw [hp, hpal]

theorem c6_first_write_widens_witness :
    (Section.new 1 1 1 1).palette = List.replicate (2 ^ 1) 0 ∧
      position_eq 7 (Section.new 1 1 1 1).palette = none ∧
      ∃ s' : Section 1 1 1,
        (Section.new 1 1 1 1).set_item ⟨0, 0, 0⟩ 7 = some (s', Except.ok ()) ∧
        s'.bits_per_item = 1 + 1 ∧
        s'.palette = List.replicate (2 ^ 1) 0 ++ [7] :=
  c6_first_write_widens 1 ⟨0, 0, 0⟩ 7 (by decide) (by decide) (by decide)
    (by decide) (by decide) (by decide)

/-- C8.  A freshly constructed section is empty; on a well-formed state
`is_empty` holds exactly when every cell decodes to palette index 0 (all
words of `data` are zero); and after a successful write of a nonzero
value the section is not empty.  Setting every cell back to 0 makes every
cell decode to index 0 again, so by the stated equivalence `is_empty`
turns true again. -/
theorem c8_emptiness (s : Section W H D) (b : Nat) (p : IVec3) (v : Nat)
    (hW : W < 2 ^ 31) (hH : H < 2 ^ 31) (hD : D < 2 ^ 31)
    (hWF : WF s)
    (hng : s.palette.length < 2 ^ 63 ∨ s.bits_per_item ≤ 62)
    (hin : 0 ≤ p.x ∧ p.x < (W : Int) ∧ 0 ≤ p.y ∧ p.y < (H : Int) ∧
      0 ≤ p.z ∧ p.z < (D : Int))
    (hv : v ≠ 0) :
    (Section.new W H D b).is_empty = true ∧
      (s.is_empty = true ↔ ∀ i, i < VOLUME W H D → s.palette_index i = some 0) ∧
      ∃ s', s.set_item p v = some (s', Except.ok ()) ∧ s'.is_empty = false := by
  refine ⟨?_, is_empty_iff_decode_zero s hWF, ?_⟩
  · rw [Section.is_empty, List.all_eq_true]
    intro x hx
    have hx0 : x = 0 := List.eq_of_mem_replicate hx
    simp [hx0]
  · obtain ⟨s', pi, hcall, hWF', hpre, hpal, hpilt, hposq, hdec, hother, hnz⟩ :=
      set_item_spec s p v hW hH hD hWF hng hin
    refine ⟨s', hcall, ?_⟩
    cases he : s'.is_empty with
    | false => rfl
    | true =>
      exfalso
      have hz := (is_empty_iff_decode_zero s' hWF').mp he (item_index H D p)
        (item_index_lt p hW hH hD hin)
      rw [hdec] at hz
      exact hnz hv (Option.some.inj hz)

theorem c8_emptiness_witness :
    (Section.new 1 1 1 2).is_empty = true ∧
      ((Section.new 1 1 1 2).is_empty = true ↔
        ∀ i, i < VOLUME 1 1 1 → (Section.new 1 1 1 2).palette_index i = some 0) ∧
      ∃ s' : Section 1 1 1,
        (Section.new 1 1 1 2).set_item ⟨0, 0, 0⟩ 6 = some (s', Except.ok ()) ∧
        s'.is_empty = false :=
  c8_emptiness (Section.new 1 1 1 2) 2 ⟨0, 0, 0⟩ 6 (by decide) (by decide)
    (by decide) (by decide) (by decide) (by decide) (by decide)

/-- C10.  A section constructed with `bits_per_item = 0` allocates `data`
of length 0 (nothing in the constructor excludes width 0), so for every
in-bounds position the bounds-checked read indexes `data[0]` of the empty
word array instead of returning `Ok(0)`, and `set_item p 0` drives the
encoder into an unchecked write past the end of `data`; both runs are the
`none` that models the panic or out-of-range access. -/
theorem c10_zero_width_breaks (p : IVec3)
    (hW : W < 2 ^ 31) (hH : H < 2 ^ 31) (hD : D < 2 ^ 31)
    (hin : 0 ≤ p.x ∧ p.x < (W : Int) ∧ 0 ≤ p.y ∧ p.y < (H : Int) ∧
      0 ≤ p.z ∧ p.z < (D : Int)) :
    (Section.new W H D 0).data.length = 0 ∧
      (Section.new W H D 0).item p = none ∧
      (Section.new W H D 0).set_item p 0 = none := by
  have hcheck := (check_ok_iff hW hH hD p).mpr hin
  have hd : (Section.new W H D 0).data = [] := by
    simp [Section.new, BITS_PER_WORD]
  have hpal : (Section.new W H D 0).palette = [0] := by
    simp [Section.new]
  have hpos : position_eq 0 (Section.new W H D 0).palette = some 0 := by
    rw [hpal]
    simp [position_eq]
  refine ⟨by rw [hd]; rfl, ?_, ?_⟩
  · simp [Section.item, Section.item_unchecked, hcheck, palette_index_nil hd]
  · simp [Section.set_item, Section.set_item_unchecked, hcheck, hpos,
      set_item_ex_nil hd]

theorem c10_zero_width_breaks_witness :
    (Section.new 1 1 1 0).data.length = 0 ∧
      (Section.new 1 1 1 0).item ⟨0, 0, 0⟩ = none ∧
      (Section.new 1 1 1 0).set_item ⟨0, 0, 0⟩ 0 = none :=
  c10_zero_width_breaks ⟨0, 0, 0⟩ (by decide) (by decide) (by decide) (by decide)

end Chroma
